import Mathlib

/-!
Shallow embedding of the ONNX model-splitting pass
(`olive/passes/onnx/split.py`, `SplitModel._run_for_config`).

The pass partitions a computation graph into `num_splits` sub-graphs guided by
a namespace-to-partition assignment map.  The embedding models:

* the graph data model and adjacency queries (the `OnnxDAG` abstraction is not
  part of the given sources, so those operations are modelled from the spec,
  sections 3 and 4.1);
* the assignment phase: direct namespace matching, the `next_split` backward
  pass, the inclusive and exclusive propagation policies, the Cast
  reconciliation pass and constant resolution (split.py lines 75-185);
* the materialization phase: per-split sub-graph construction, input copying,
  output marking, constant replication and the deferred missing-value-info
  list (split.py lines 187-252);
* the shape-inference backfill (split.py lines 254-268).

Graphs are taken with `nodes` already listed in a topological order (the code
obtains one via `dag.topological_sort()`); maps are association lists.
-/

namespace OliveSplit

/-- Node of the computation graph: identity, operator kind, ordered input and
output tensor names (the empty string denotes an omitted optional slot).
Modelled from the spec: the graph abstraction (`OnnxDAG`) is not among the
sources; the data model follows spec sections 3 and 4.1. -/
structure Node where
  name : String
  opType : String
  inputs : List String
  outputs : List String
deriving DecidableEq, Repr

/-- Graph: node list in topological order, declared graph inputs, initializer
names, declared graph outputs, and the set of tensor names that carry
value-info (type/shape metadata).  Modelled from the spec, section 3. -/
structure Graph where
  nodes : List Node
  graphInputs : List String
  initializers : List String
  graphOutputs : List String
  valueInfoNames : List String
deriving DecidableEq, Repr

/-- Association-list lookup with string keys (stands in for Python dict
lookup; first binding wins, keys are assumed distinct). -/
def alookup {α : Type} (k : String) : List (String × α) → Option α
  | [] => none
  | (k', v) :: rest => if k = k' then some v else alookup k rest

/-- Minimum of a list of naturals, `none` on the empty list (Python `min`
guarded by a non-emptiness check). -/
def listMin : List Nat → Option Nat
  | [] => none
  | x :: xs =>
    match listMin xs with
    | none => some x
    | some m => some (min x m)

/-- Maximum of a list of naturals, `none` on the empty list (Python `max`
guarded by a non-emptiness check). -/
def listMax : List Nat → Option Nat
  | [] => none
  | x :: xs =>
    match listMax xs with
    | none => some x
    | some m => some (max x m)

/-- Producer of a tensor name: the node having it among its outputs.
Modelled from the spec, section 4.1. -/
def producerOf (g : Graph) (t : String) : Option Node :=
  g.nodes.find? (fun n => decide (t ∈ n.outputs))

/-- Names of the nodes consuming a tensor name.  Modelled from the spec,
section 4.1. -/
def tensorConsumers (g : Graph) (t : String) : List String :=
  (g.nodes.filter (fun n => decide (t ∈ n.inputs))).map Node.name

/-- Consumers of a tensor name including the special graph-output consumer
(`dag.get_consumers(io_name, True)`).  Modelled from the spec. -/
def tensorConsumersSpecial (g : Graph) (t : String) : List String :=
  tensorConsumers g t ++ (if t ∈ g.graphOutputs then ["__output__"] else [])

/-- Names of the direct successor nodes of a node
(`dag.get_consumers(node_name)`).  Modelled from the spec, section 4.1. -/
def nodeConsumers (g : Graph) (n : Node) : List String :=
  (((n.outputs.filter (fun t => decide (t ≠ ""))).foldr
      (fun t acc => tensorConsumers g t ++ acc) [])).dedup

/-- Successors of a node including special graph-output consumers
(`dag.get_consumers(node_name, True)`).  Modelled from the spec. -/
def nodeConsumersSpecial (g : Graph) (n : Node) : List String :=
  (((n.outputs.filter (fun t => decide (t ≠ ""))).foldr
      (fun t acc => tensorConsumersSpecial g t ++ acc) [])).dedup

/-- Names of the direct predecessor nodes (`dag.get_parents(node_name)`).
Modelled from the spec, section 4.1. -/
def getParents (g : Graph) (n : Node) : List String :=
  n.inputs.filterMap (fun t =>
    if t = "" then none else (producerOf g t).map Node.name)

/-- Predecessors including special entries for inputs not produced by a node
(`dag.get_parents(node_name, True)`).  Modelled from the spec. -/
def getParentsSpecial (g : Graph) (n : Node) : List String :=
  n.inputs.filterMap (fun t =>
    if t = "" then none
    else
      match producerOf g t with
      | some p => some p.name
      | none => some ("__special__" ++ t))

/-- Whether a tensor name is constant-valued: an initializer, or produced by a
Constant-kind node (`dag.is_constant_input`).  Modelled from the spec,
section 4.1 (`isConstantProducedInput`). -/
def is_constant_input (g : Graph) (t : String) : Bool :=
  decide (t ∈ g.initializers) ||
    (match producerOf g t with
     | some p => decide (p.opType = "Constant")
     | none => false)

/-- Whether a node consumes some declared graph input
(`dag.is_input_consumer`).  Modelled from the spec. -/
def is_input_consumer (g : Graph) (n : Node) : Bool :=
  n.inputs.any (fun t => decide (t ∈ g.graphInputs))

/-- Whether a node produces some declared graph output
(`dag.is_output_producer`).  Modelled from the spec. -/
def is_output_producer (g : Graph) (n : Node) : Bool :=
  n.outputs.any (fun t => decide (t ∈ g.graphOutputs))

/-- Replace every path separator by the namespace delimiter
(Python `name.replace("/", ".")`, split.py line 85). -/
def replaceSlash : List Char → List Char
  | [] => []
  | c :: cs => (if c = '/' then '.' else c) :: replaceSlash cs

/-- Strip all leading delimiters (Python `str.lstrip(".")`, split.py
line 85). -/
def dropLeadingDots : List Char → List Char
  | [] => []
  | c :: cs => if c = '.' then dropLeadingDots cs else c :: cs

/-- Split on the delimiter with Python `str.split(".")` semantics: the result
is never empty and keeps empty components. -/
def splitOnDot : List Char → List (List Char)
  | [] => [[]]
  | c :: cs =>
    if c = '.' then [] :: splitOnDot cs
    else
      match splitOnDot cs with
      | [] => [[c]]
      | p :: ps => (c :: p) :: ps

/-- Join components with the delimiter (Python `".".join(components)`,
split.py line 86). -/
def joinDots : List (List Char) → List Char
  | [] => []
  | [p] => p
  | p :: ps => p ++ '.' :: joinDots ps

/-- Namespace of a node name at a given depth: normalize separators, strip
leading delimiters, split, take the first `depth` components, re-join
(split.py lines 85-86). -/
def nodeNamespace (depth : Nat) (name : String) : String :=
  String.mk (joinDots (((splitOnDot (dropLeadingDots (replaceSlash name.data)))).take depth))

/-- Namespace depth of the run: number of components of the first key of the
split-assignment map (split.py line 61); `0` on an empty map. -/
def namespaceDepth (sa : List (String × Nat)) : Nat :=
  match sa with
  | [] => 0
  | (k, _) :: _ => (splitOnDot k.data).length

/-- Number of splits: count of distinct partition indices in the
split-assignment map (split.py line 60). -/
def numSplits (sa : List (String × Nat)) : Nat :=
  ((sa.map Prod.snd).dedup).length

/-- Direct pass: every non-Constant node whose namespace is a key of the
split-assignment map receives that partition (split.py lines 79-88). -/
def directAssignments (g : Graph) (sa : List (String × Nat)) (depth : Nat) :
    List (String × Nat) :=
  g.nodes.filterMap (fun n =>
    if n.opType = "Constant" then none
    else (alookup (nodeNamespace depth n.name) sa).map (fun p => (n.name, p)))

/-- One step of the backward `next_split` pass (split.py lines 93-106). -/
def nextSplitStep (g : Graph) (direct : List (String × Nat))
    (ns : List (String × Option Nat)) (n : Node) : List (String × Option Nat) :=
  if (alookup n.name direct).isSome ∨ n.opType = "Constant" then ns
  else
    (n.name,
      listMin ((nodeConsumers g n).filterMap (fun c => (alookup c ns).getD none))) :: ns

/-- The `next_split` map: seeded with the direct assignments, then filled for
the remaining non-Constant nodes in reverse topological order with the minimum
next split among consumers, or `none` (split.py lines 90-106). -/
def computeNextSplit (g : Graph) (direct : List (String × Nat)) :
    List (String × Option Nat) :=
  g.nodes.reverse.foldl (nextSplitStep g direct)
    (direct.map (fun kv => (kv.1, some kv.2)))

/-- One step of the inclusive-policy pass (split.py lines 109-129). -/
def inclusiveStep (g : Graph) (ns : List (String × Option Nat))
    (asg : List (String × Nat)) (n : Node) : List (String × Nat) :=
  if (alookup n.name asg).isSome ∨ n.opType = "Constant" then asg
  else
    match listMax ((getParents g n).filterMap (fun p => alookup p asg)) with
    | some m => asg ++ [(n.name, m)]
    | none =>
      match (alookup n.name ns).getD none with
      | some v => asg ++ [(n.name, v)]
      | none => asg ++ [(n.name, 0)]

/-- Inclusive policy (`include_all_nodes = true`): forward pass assigning every
still-unassigned non-Constant node (split.py lines 108-129). -/
def inclusivePass (g : Graph) (ns : List (String × Option Nat))
    (direct : List (String × Nat)) : List (String × Nat) :=
  g.nodes.foldl (inclusiveStep g ns) direct

/-- One step of the exclusive-policy pass (split.py lines 134-154). -/
def exclusiveStep (g : Graph) (ns : List (String × Option Nat))
    (asg : List (String × Nat)) (n : Node) : List (String × Nat) :=
  if (alookup n.name asg).isSome ∨ n.opType = "Constant" then asg
  else
    match (alookup n.name ns).getD none with
    | none => asg
    | some nextv =>
      match listMax ((getParents g n).filterMap (fun p => alookup p asg)) with
      | some m => asg ++ [(n.name, m)]
      | none =>
        if n.inputs.all (is_constant_input g) then asg ++ [(n.name, nextv)]
        else asg

/-- Exclusive policy (`include_all_nodes = false`): forward pass over
still-unassigned non-Constant nodes; nodes after the last split stay
unassigned (split.py lines 130-154). -/
def exclusivePass (g : Graph) (ns : List (String × Option Nat))
    (direct : List (String × Nat)) : List (String × Nat) :=
  g.nodes.foldl (exclusiveStep g ns) direct

/-- One step of the Cast reconciliation pass (split.py lines 159-176): a
still-unassigned Cast node with exactly one consumer (special consumers
included) inherits its sole consumer's partition when it consumes a graph
input and that consumer is assigned, otherwise its first parent's partition
when that parent is assigned and the node produces a graph output. -/
def castStep (g : Graph) (asg : List (String × Nat)) (n : Node) :
    List (String × Nat) :=
  if (alookup n.name asg).isSome ∨ n.opType ≠ "Cast" ∨
      (nodeConsumersSpecial g n).length ≠ 1 then asg
  else if is_input_consumer g n ∧
      (alookup ((nodeConsumersSpecial g n).headD "") asg).isSome then
    match alookup ((nodeConsumersSpecial g n).headD "") asg with
    | some p => asg ++ [(n.name, p)]
    | none => asg
  else
    match alookup ((getParentsSpecial g n).headD "") asg with
    | some p => if is_output_producer g n then asg ++ [(n.name, p)] else asg
    | none => asg

/-- Cast reconciliation pass over all nodes in order (split.py
lines 156-176). -/
def castPass (g : Graph) (asg : List (String × Nat)) : List (String × Nat) :=
  g.nodes.foldl (castStep g) asg

/-- Constant resolution (split.py lines 178-185): a Constant node is assigned
the set (distinct list, in consumer order) of partitions of its assigned
consumers; Constant nodes with no assigned consumer are omitted. -/
def constantAssignments (g : Graph) (asg : List (String × Nat)) :
    List (String × List Nat) :=
  (g.nodes.filter (fun n => decide (n.opType = "Constant"))).filterMap (fun n =>
    let splits := ((nodeConsumers g n).filterMap (fun c => alookup c asg)).dedup
    if splits = [] then none else some (n.name, splits))

/-- Main (single-valued) node assignments: direct pass, `next_split`, then the
policy pass; under the exclusive policy additionally the Cast reconciliation
pass (split.py lines 75-176). -/
def mainAssignments (g : Graph) (sa : List (String × Nat))
    (includeAllNodes : Bool) : List (String × Nat) :=
  let direct := directAssignments g sa (namespaceDepth sa)
  let ns := computeNextSplit g direct
  if includeAllNodes then inclusivePass g ns direct
  else castPass g (exclusivePass g ns direct)

/-- Final assignment value of a node: a single partition, or a set of
partitions for a replicated Constant node (spec section 3, "Node assignment
map"). -/
inductive Assignment where
  | single (p : Nat)
  | multi (ps : List Nat)
deriving DecidableEq, Repr

/-- Complete assignment phase (split.py lines 75-185): the single-valued main
assignments plus the Constant-node set assignments. -/
def assignNodes (g : Graph) (sa : List (String × Nat))
    (includeAllNodes : Bool) : List (String × Assignment) :=
  let asg := mainAssignments g sa includeAllNodes
  asg.map (fun kv => (kv.1, Assignment.single kv.2)) ++
    (constantAssignments g asg).map (fun kv => (kv.1, Assignment.multi kv.2))

/-- Sub-graph under construction: declared typed inputs, untyped placeholder
inputs, copied initializer facets, node list, marked outputs and attached
value-info names.  Modelled from the spec, sections 4.1 and 4.3 (the builder
side of `OnnxDAG`). -/
structure SplitDag where
  typedInputs : List String
  untypedInputs : List String
  initFacets : List String
  nodes : List Node
  outputs : List String
  valueInfos : List String
deriving DecidableEq, Repr

/-- The empty sub-graph each split starts from (split.py lines 66-73). -/
def emptySplitDag : SplitDag :=
  { typedInputs := [], untypedInputs := [], initFacets := [], nodes := [],
    outputs := [], valueInfos := [] }

/-- Whether a tensor name is already registered in a sub-graph: as a declared
input, a copied initializer, or an output of an added node
(`split_dag.is_io`).  Modelled from the spec. -/
def SplitDag.isIo (sd : SplitDag) (t : String) : Bool :=
  decide (t ∈ sd.typedInputs) || decide (t ∈ sd.untypedInputs) ||
    decide (t ∈ sd.initFacets) || sd.nodes.any (fun n => decide (t ∈ n.outputs))

/-- Errors of the materialization / backfill phase: indexing a split list past
its end (Python `IndexError`), or a deferred name still lacking value-info
after shape inference (split.py line 266). -/
inductive MatError where
  | indexOutOfBounds (splitId : Nat)
  | unresolvedValueInfo (name : String)
deriving DecidableEq, Repr

/-- State of the materialization loop: the sub-graphs under construction and
the deferred missing-value-info list of `(name, split)` records (split.py
line 189). -/
structure MatState where
  dags : List SplitDag
  missingVI : List (String × Nat)
deriving DecidableEq, Repr

/-- Handling of one input slot of a node materialized into split `p`
(split.py lines 199-223): skip empty or already-registered names; copy graph
input and/or initializer facets; otherwise add a cross-split input, typed when
value-info is known, else an untyped placeholder recorded in the deferred
list. -/
def addNodeInput (g : Graph) (p : Nat) (acc : SplitDag × List (String × Nat))
    (t : String) : SplitDag × List (String × Nat) :=
  if t = "" then acc
  else if acc.1.isIo t then acc
  else if t ∈ g.graphInputs ∨ t ∈ g.initializers then
    let sd1 :=
      if t ∈ g.graphInputs then
        { acc.1 with typedInputs := acc.1.typedInputs ++ [t] }
      else acc.1
    let sd2 :=
      if t ∈ g.initializers then
        { sd1 with initFacets := sd1.initFacets ++ [t] }
      else sd1
    (sd2, acc.2)
  else if t ∈ g.valueInfoNames then
    ({ acc.1 with typedInputs := acc.1.typedInputs ++ [t] }, acc.2)
  else
    ({ acc.1 with untypedInputs := acc.1.untypedInputs ++ [t] }, acc.2 ++ [(t, p)])

/-- Whether some consumer of a tensor (special graph-output consumer included)
has an assignment different from `single p` (the output-marking condition of
split.py lines 234-240, where `node_assignments.get(consumer) != split_id`). -/
def consumerOutsideB (g : Graph) (asg : List (String × Assignment)) (p : Nat)
    (t : String) : Bool :=
  (tensorConsumersSpecial g t).any
    (fun c => decide (alookup c asg ≠ some (Assignment.single p)))

/-- Handling of one output slot of a node materialized into split `p`
(split.py lines 229-248): mark the name as a sub-graph output when some
consumer lies outside the split, attach value-info when known, else record the
name in the deferred list when it was marked as output. -/
def markNodeOutput (g : Graph) (asg : List (String × Assignment)) (p : Nat)
    (acc : SplitDag × List (String × Nat)) (t : String) :
    SplitDag × List (String × Nat) :=
  if t = "" then acc
  else
    ({ acc.1 with
        outputs :=
          if consumerOutsideB g asg p t then
            (if t ∈ acc.1.outputs then acc.1.outputs else acc.1.outputs ++ [t])
          else acc.1.outputs,
        valueInfos :=
          if t ∈ g.valueInfoNames then acc.1.valueInfos ++ [t]
          else acc.1.valueInfos },
      if t ∉ g.valueInfoNames ∧ consumerOutsideB g asg p t then
        acc.2 ++ [(t, p)]
      else acc.2)

/-- Replication of a Constant node into every split of its assignment set
(split.py lines 249-252); indexing past the end of the split list is the
out-of-bounds error. -/
def addConstantCopies (n : Node) : List Nat → List SplitDag →
    Except MatError (List SplitDag)
  | [], dags => .ok dags
  | idx :: rest, dags =>
    match dags.get? idx with
    | none => .error (.indexOutOfBounds idx)
    | some sd =>
      addConstantCopies n rest (dags.set idx { sd with nodes := sd.nodes ++ [n] })

/-- Materialization of one node (split.py lines 190-252): unassigned nodes are
skipped; a node with a single assignment is added to its split together with
its input and output bookkeeping; a Constant node with a set assignment is
copied into each listed split. -/
def materializeNode (g : Graph) (asg : List (String × Assignment))
    (st : MatState) (n : Node) : Except MatError MatState :=
  match alookup n.name asg with
  | none => .ok st
  | some (Assignment.single p) =>
    match st.dags.get? p with
    | none => .error (.indexOutOfBounds p)
    | some sd =>
      let im := n.inputs.foldl (addNodeInput g p) (sd, st.missingVI)
      let sdn := { im.1 with nodes := im.1.nodes ++ [n] }
      let om := n.outputs.foldl (markNodeOutput g asg p) (sdn, im.2)
      .ok { dags := st.dags.set p om.1, missingVI := om.2 }
  | some (Assignment.multi ps) =>
    match addConstantCopies n ps st.dags with
    | .error e => .error e
    | .ok dags => .ok { st with dags := dags }

/-- Materialization of a node list in order, threading the state (split.py
lines 190-252). -/
def materializeList (g : Graph) (asg : List (String × Assignment)) :
    List Node → MatState → Except MatError MatState
  | [], st => .ok st
  | n :: rest, st =>
    match materializeNode g asg st n with
    | .error e => .error e
    | .ok st' => materializeList g asg rest st'

/-- Materialization of the whole graph into `k` fresh sub-graphs (split.py
lines 66-73 and 187-252). -/
def materializeAll (g : Graph) (asg : List (String × Assignment)) (k : Nat) :
    Except MatError MatState :=
  materializeList g asg g.nodes
    { dags := List.replicate k emptySplitDag, missingVI := [] }

/-- Record of one invocation of the external shape-inference collaborator:
the graph it is applied to and the dynamic-dimension auto-merge flag
(split.py line 260, `SymbolicShapeInference.infer_shapes(model_proto,
auto_merge=True)`). -/
structure InferCall where
  graph : Graph
  autoMerge : Bool
deriving DecidableEq, Repr

/-- Overwrite of the deferred placeholders with inferred value-info (split.py
lines 263-268): for each `(name, split)` record, fail when inference produced
no value-info for the name, else attach it in that split. -/
def applyInferredVI (inferredVI : String → Bool) :
    List (String × Nat) → List SplitDag → Except MatError (List SplitDag)
  | [], dags => .ok dags
  | (nm, idx) :: rest, dags =>
    if inferredVI nm then
      applyInferredVI inferredVI rest
        (match dags.get? idx with
         | none => dags
         | some sd => dags.set idx { sd with valueInfos := sd.valueInfos ++ [nm] })
    else .error (.unresolvedValueInfo nm)

/-- Missing-metadata resolution (split.py lines 254-268): when the deferred
list is non-empty the collaborator is invoked once on the original graph with
auto-merge enabled and the placeholders are overwritten; the second component
records the collaborator invocations. -/
def resolveMissingVI (g : Graph) (inferredVI : String → Bool) (st : MatState) :
    Except MatError (List SplitDag) × List InferCall :=
  if st.missingVI = [] then (.ok st.dags, [])
  else (applyInferredVI inferredVI st.missingVI st.dags, [⟨g, true⟩])

/-- End-to-end run of the pass on an already-parsed split-assignment map
(split.py lines 58-268; serialization of the finished sub-graphs is outside
the model).  The `inferredVI` oracle tells which tensor names the external
shape-inference collaborator can type on the original graph. -/
def runSplit (g : Graph) (sa : List (String × Nat)) (includeAllNodes : Bool)
    (inferredVI : String → Bool) :
    Except MatError (List SplitDag) × List InferCall :=
  let asg := assignNodes g sa includeAllNodes
  match materializeAll g asg (numSplits sa) with
  | .error e => (.error e, [])
  | .ok st => resolveMissingVI g inferredVI st

/-- Whether a run result is a successful materialization from which the named
node is absent in every sub-graph. -/
def excludedFrom (res : Except MatError MatState) (nm : String) : Bool :=
  match res with
  | .error _ => false
  | .ok st => st.dags.all (fun sd => sd.nodes.all (fun m => decide (m.name ≠ nm)))

/-- Chain graph `A -> B -> C -> D` of the spec scenarios (section 8). -/
def chainA : Node := { name := "A", opType := "Relu", inputs := ["x"], outputs := ["a"] }

/-- Second node of the chain graph. -/
def chainB : Node := { name := "B", opType := "Relu", inputs := ["a"], outputs := ["b"] }

/-- Third node of the chain graph. -/
def chainC : Node := { name := "C", opType := "Relu", inputs := ["b"], outputs := ["c"] }

/-- Fourth node of the chain graph. -/
def chainD : Node := { name := "D", opType := "Relu", inputs := ["c"], outputs := ["d"] }

/-- The chain graph itself. -/
def chainG : Graph :=
  { nodes := [chainA, chainB, chainC, chainD], graphInputs := ["x"],
    initializers := [], graphOutputs := ["d"],
    valueInfoNames := ["x", "a", "b", "c", "d"] }

/-- Split-assignment map of the chain scenarios: namespace depth 1,
`B` to split 0, `C` to split 1. -/
def chainSA : List (String × Nat) := [("B", 0), ("C", 1)]

/-- Assigned producer node of the Split-to-Cast-to-Output example. -/
def castExP : Node := { name := "P", opType := "Relu", inputs := ["i"], outputs := ["t"] }

/-- Cast node of the Split-to-Cast-to-Output example: it has no assigned
descendant, yet produces a graph output. -/
def castExX : Node := { name := "X", opType := "Cast", inputs := ["t"], outputs := ["u"] }

/-- Graph with an assigned node feeding a Cast node that produces a graph
output. -/
def castExG : Graph :=
  { nodes := [castExP, castExX], graphInputs := ["i"], initializers := [],
    graphOutputs := ["u"], valueInfoNames := ["i", "t", "u"] }

/-- Split-assignment map of the Split-to-Cast-to-Output example. -/
def castExSA : List (String × Nat) := [("P", 0)]

/-- Constant node consumed by two differently assigned nodes. -/
def constK : Node := { name := "K", opType := "Constant", inputs := [], outputs := ["k"] }

/-- Constant node with no consumer at all. -/
def constK2 : Node := { name := "K2", opType := "Constant", inputs := [], outputs := ["k2"] }

/-- First consumer of the shared constant, directly assigned to split 0. -/
def constA : Node := { name := "A", opType := "Relu", inputs := ["k"], outputs := ["oa"] }

/-- Second consumer of the shared constant, directly assigned to split 1. -/
def constB : Node := { name := "B", opType := "Relu", inputs := ["k"], outputs := ["ob"] }

/-- Graph with a constant feeding two splits and a dangling constant. -/
def constG : Graph :=
  { nodes := [constK, constK2, constA, constB], graphInputs := [],
    initializers := [], graphOutputs := ["oa", "ob"],
    valueInfoNames := ["k", "k2", "oa", "ob"] }

/-- Split-assignment map of the shared-constant example. -/
def constSA : List (String × Nat) := [("A", 0), ("B", 1)]

/-- Constant of the three-split replication example, consumed in splits 0 and
2 only. -/
def repK : Node := { name := "K", opType := "Constant", inputs := [], outputs := ["k"] }

/-- Split-0 consumer of the replication example. -/
def repA : Node := { name := "A", opType := "Relu", inputs := ["k"], outputs := ["oa"] }

/-- Split-1 node of the replication example (does not consume the constant). -/
def repB : Node := { name := "B", opType := "Relu", inputs := ["x"], outputs := ["ob"] }

/-- Split-2 consumer of the replication example. -/
def repC : Node := { name := "C", opType := "Relu", inputs := ["k"], outputs := ["oc"] }

/-- Three-split graph whose constant has consumers in splits 0 and 2 and none
in split 1. -/
def repG : Graph :=
  { nodes := [repK, repA, repB, repC], graphInputs := ["x"],
    initializers := [], graphOutputs := ["oa", "ob", "oc"],
    valueInfoNames := ["x", "k", "oa", "ob", "oc"] }

/-- Split-assignment map of the replication example. -/
def repSA : List (String × Nat) := [("A", 0), ("B", 1), ("C", 2)]

/-- Cast node sitting between a graph input and an assigned node. -/
def inCastX : Node := { name := "X1", opType := "Cast", inputs := ["i"], outputs := ["t"] }

/-- Assigned consumer of the input-side Cast node. -/
def inCastB : Node := { name := "B", opType := "Relu", inputs := ["t"], outputs := ["o"] }

/-- Graph of the Input-to-Cast-to-Split scenario. -/
def inCastG : Graph :=
  { nodes := [inCastX, inCastB], graphInputs := ["i"], initializers := [],
    graphOutputs := ["o"], valueInfoNames := ["i", "t", "o"] }

/-- Split-assignment map of the Input-to-Cast-to-Split scenario. -/
def inCastSA : List (String × Nat) := [("B", 0)]

/-- First node of the non-uniform-depth example, matching the depth-2 key. -/
def depthN1 : Node := { name := "x.y.w", opType := "Relu", inputs := ["i"], outputs := ["t1"] }

/-- Second node of the non-uniform-depth example; its depth-2 namespace
matches no key. -/
def depthN2 : Node := { name := "z.a", opType := "Relu", inputs := ["t1"], outputs := ["t2"] }

/-- Graph of the non-uniform-depth example. -/
def depthG : Graph :=
  { nodes := [depthN1, depthN2], graphInputs := ["i"], initializers := [],
    graphOutputs := ["t2"], valueInfoNames := ["i", "t1", "t2"] }

/-- Split-assignment map with keys of different namespace depths (2 and 1). -/
def depthSA : List (String × Nat) := [("x.y", 0), ("z", 1)]

/-- The same map with the two keys swapped, so a first key of depth 1. -/
def depthSA' : List (String × Nat) := [("z", 1), ("x.y", 0)]

/-- First node of the non-contiguous-indices example. -/
def gapB : Node := { name := "B", opType := "Relu", inputs := ["x"], outputs := ["b"] }

/-- Second node of the non-contiguous-indices example, assigned raw index 2. -/
def gapC : Node := { name := "C", opType := "Relu", inputs := ["b"], outputs := ["c"] }

/-- Graph of the non-contiguous-indices example. -/
def gapG : Graph :=
  { nodes := [gapB, gapC], graphInputs := ["x"], initializers := [],
    graphOutputs := ["c"], valueInfoNames := ["x", "b", "c"] }

/-- Split-assignment map using the non-contiguous index set `(0, 2)`: two
distinct indices, so `num_splits = 2`, yet the raw value 2 is used to index
the split list. -/
def gapSA : List (String × Nat) := [("B", 0), ("C", 2)]

/-- Whether a run result is a successful materialization whose sub-graph `j`
contains a node of the given name. -/
def includedIn (res : Except MatError MatState) (nm : String) (j : Nat) : Bool :=
  match res with
  | .error _ => false
  | .ok st => (st.dags.getD j emptySplitDag).nodes.any (fun m => decide (m.name = nm))

end OliveSplit

namespace OliveSplit

theorem alookup_cons {α : Type} (k k' : String) (v : α) (rest : List (String × α)) :
    alookup k ((k', v) :: rest) = if k = k' then some v else alookup k rest := rfl

theorem alookup_append_some {α : Type} {k : String} {l1 : List (String × α)}
    (l2 : List (String × α)) {v : α} (h : alookup k l1 = some v) :
    alookup k (l1 ++ l2) = some v := by
  induction l1 with
  | nil => simp [alookup] at h
  | cons kv rest ih =>
    rw [List.cons_append, alookup_cons]
    rw [alookup_cons] at h
    by_cases hk : k = kv.1
    · rw [if_pos hk] at h
      rw [if_pos hk]
      exact h
    · rw [if_neg hk] at h
      rw [if_neg hk]
      exact ih h

theorem alookup_append_none {α : Type} {k : String} {l1 : List (String × α)}
    (l2 : List (String × α)) (h : alookup k l1 = none) :
    alookup k (l1 ++ l2) = alookup k l2 := by
  induction l1 with
  | nil => rfl
  | cons kv rest ih =>
    rw [List.cons_append, alookup_cons]
    rw [alookup_cons] at h
    by_cases hk : k = kv.1
    · rw [if_pos hk] at h
      cases h
    · rw [if_neg hk] at h
      rw [if_neg hk]
      exact ih h

theorem alookup_map_value {α β : Type} (k : String) (f : α → β)
    (l : List (String × α)) :
    alookup k (l.map (fun kv => (kv.1, f kv.2))) = (alookup k l).map f := by
  induction l with
  | nil => rfl
  | cons kv rest ih =>
    rw [List.map_cons, alookup_cons, alookup_cons]
    by_cases hk : k = kv.1
    · rw [if_pos hk, if_pos hk]
      rfl
    · rw [if_neg hk, if_neg hk]
      exact ih

theorem alookup_mem {α : Type} {k : String} {l : List (String × α)} {v : α}
    (h : alookup k l = some v) : (k, v) ∈ l := by
  induction l with
  | nil => simp [alookup] at h
  | cons kv rest ih =>
    by_cases hk : k = kv.1
    · rw [alookup_cons, if_pos hk] at h
      cases h
      rw [List.mem_cons]
      left
      rw [hk]
    · rw [alookup_cons, if_neg hk] at h
      exact List.mem_cons_of_mem _ (ih h)

theorem alookup_none_of_keys {α : Type} {k : String} {l : List (String × α)}
    (h : ∀ kv ∈ l, kv.1 ≠ k) : alookup k l = none := by
  induction l with
  | nil => rfl
  | cons kv rest ih =>
    rw [alookup_cons, if_neg (fun he => (h kv (by simp)) he.symm)]
    exact ih (fun kv' hm => h kv' (List.mem_cons_of_mem _ hm))

theorem alookup_single_append {α : Type} {k : String} {l : List (String × α)}
    (k' : String) (v : α) (h : alookup k l = none) :
    alookup k (l ++ [(k', v)]) = if k = k' then some v else none := by
  rw [alookup_append_none _ h, alookup_cons]
  rfl

theorem listMin_mem {l : List Nat} {m : Nat} (h : listMin l = some m) : m ∈ l := by
  induction l generalizing m with
  | nil => simp [listMin] at h
  | cons x xs ih =>
    rw [listMin] at h
    cases hxs : listMin xs with
    | none => rw [hxs] at h; cases h; simp
    | some m' =>
      rw [hxs] at h
      cases h
      by_cases hle : x ≤ m'
      · rw [Nat.min_def, if_pos hle]
        simp
      · rw [Nat.min_def, if_neg hle]
        exact List.mem_cons_of_mem _ (ih hxs)

theorem listMax_mem {l : List Nat} {m : Nat} (h : listMax l = some m) : m ∈ l := by
  induction l generalizing m with
  | nil => simp [listMax] at h
  | cons x xs ih =>
    rw [listMax] at h
    cases hxs : listMax xs with
    | none => rw [hxs] at h; cases h; simp
    | some m' =>
      rw [hxs] at h
      cases h
      by_cases hle : x ≤ m'
      · rw [Nat.max_def, if_pos hle]
        exact List.mem_cons_of_mem _ (ih hxs)
      · rw [Nat.max_def, if_neg hle]
        simp

/-- Steps of the assignment passes either leave the map unchanged or append
one binding for the processed node's own name. -/
def AppendStep (step : List (String × Nat) → Node → List (String × Nat)) : Prop :=
  ∀ asg n, step asg n = asg ∨ ∃ v, step asg n = asg ++ [(n.name, v)]

theorem inclusiveStep_append (g : Graph) (ns : List (String × Option Nat)) :
    AppendStep (inclusiveStep g ns) := by
  intro asg n
  unfold inclusiveStep
  split
  · left
    rfl
  · split
    · right
      exact ⟨_, rfl⟩
    · split
      · right
        exact ⟨_, rfl⟩
      · right
        exact ⟨_, rfl⟩

theorem exclusiveStep_append (g : Graph) (ns : List (String × Option Nat)) :
    AppendStep (exclusiveStep g ns) := by
  intro asg n
  unfold exclusiveStep
  split
  · left
    rfl
  · split
    · left
      rfl
    · split
      · right
        exact ⟨_, rfl⟩
      · split
        · right
          exact ⟨_, rfl⟩
        · left
          rfl

theorem castStep_append (g : Graph) : AppendStep (castStep g) := by
  intro asg n
  unfold castStep
  split
  · left
    rfl
  · split
    · split
      · right
        exact ⟨_, rfl⟩
      · left
        rfl
    · split
      · split
        · right
          exact ⟨_, rfl⟩
        · left
          rfl
      · left
        rfl

theorem foldl_alookup_mono {step : List (String × Nat) → Node → List (String × Nat)}
    (hstep : AppendStep step) (l : List Node) (asg : List (String × Nat))
    {x : String} {v : Nat} (h : alookup x asg = some v) :
    alookup x (l.foldl step asg) = some v := by
  induction l generalizing asg with
  | nil => exact h
  | cons n rest ih =>
    rw [List.foldl_cons]
    apply ih
    rcases hstep asg n with he | ⟨w, he⟩
    · rw [he]
      exact h
    · rw [he]
      exact alookup_append_some _ h

theorem foldl_alookup_none {step : List (String × Nat) → Node → List (String × Nat)}
    (hstep : AppendStep step) (l : List Node) (asg : List (String × Nat))
    {x : String}
    (hkeep : ∀ a n, n ∈ l → n.name = x → alookup x a = none →
      alookup x (step a n) = none)
    (h : alookup x asg = none) : alookup x (l.foldl step asg) = none := by
  induction l generalizing asg with
  | nil => exact h
  | cons n rest ih =>
    rw [List.foldl_cons]
    refine ih (step asg n) (fun a n' hn' => hkeep a n' (List.mem_cons_of_mem _ hn')) ?_
    by_cases hx : n.name = x
    · exact hkeep asg n (List.mem_cons_self _ _) hx h
    · rcases hstep asg n with he | ⟨w, he⟩
      · rw [he]
        exact h
      · rw [he, alookup_single_append _ _ h, if_neg (fun hh => hx hh.symm)]

theorem inclusiveStep_assigns (g : Graph) (ns : List (String × Option Nat))
    (asg : List (String × Nat)) (n : Node) (hc : n.opType ≠ "Constant") :
    (alookup n.name (inclusiveStep g ns asg n)).isSome := by
  unfold inclusiveStep
  by_cases h : (alookup n.name asg).isSome ∨ n.opType = "Constant"
  · rw [if_pos h]
    rcases h with h | h
    · exact h
    · exact absurd h hc
  · rw [if_neg h]
    have hnone : alookup n.name asg = none := by
      cases hl : alookup n.name asg with
      | none => rfl
      | some u => exact absurd (Or.inl (by rw [hl]; rfl)) h
    have hself : ∀ w : Nat,
        (alookup n.name (asg ++ [(n.name, w)])).isSome := by
      intro w
      rw [alookup_single_append _ _ hnone, if_pos rfl]
      rfl
    split
    · exact hself _
    · split
      · exact hself _
      · exact hself _

/-- Every value of the map is strictly below the bound. -/
def RangeBound (K : Nat) (asg : List (String × Nat)) : Prop :=
  ∀ x v, alookup x asg = some v → v < K

/-- Every known `next_split` value is strictly below the bound. -/
def NSBound (K : Nat) (ns : List (String × Option Nat)) : Prop :=
  ∀ x v, alookup x ns = some (some v) → v < K

theorem range_append {K : Nat} {asg : List (String × Nat)} {nm : String}
    {w : Nat} (h0 : RangeBound K asg) (hw : w < K) :
    RangeBound K (asg ++ [(nm, w)]) := by
  intro x v h
  cases hl : alookup x asg with
  | some u =>
    rw [alookup_append_some _ hl] at h
    cases h
    exact h0 x _ hl
  | none =>
    rw [alookup_single_append _ _ hl] at h
    by_cases hx : x = nm
    · rw [if_pos hx] at h
      cases h
      exact hw
    · rw [if_neg hx] at h
      cases h

theorem getD_none_eq_some {o : Option (Option Nat)} {v : Nat}
    (h : o.getD none = some v) : o = some (some v) := by
  cases o with
  | none => cases h
  | some o' => rw [Option.getD_some] at h; rw [h]

theorem directAssignments_range {g : Graph} {sa : List (String × Nat)}
    {depth K : Nat} (hsa : ∀ v ∈ sa.map Prod.snd, v < K) :
    RangeBound K (directAssignments g sa depth) := by
  intro x v h
  have hm := alookup_mem h
  rw [directAssignments, List.mem_filterMap] at hm
  obtain ⟨n, _, hn⟩ := hm
  by_cases hc : n.opType = "Constant"
  · rw [if_pos hc] at hn
    cases hn
  · rw [if_neg hc, Option.map_eq_some'] at hn
    obtain ⟨p, hp, hpe⟩ := hn
    cases hpe
    exact hsa _ (List.mem_map.mpr ⟨_, alookup_mem hp, rfl⟩)

theorem nextSplit_fold_bound (g : Graph) (direct : List (String × Nat))
    {K : Nat} (hd : RangeBound K direct) (l : List Node)
    (ns0 : List (String × Option Nat)) (h0 : NSBound K ns0) :
    NSBound K (l.foldl (nextSplitStep g direct) ns0) := by
  induction l generalizing ns0 with
  | nil => exact h0
  | cons n rest ih =>
    rw [List.foldl_cons]
    apply ih
    intro x v h
    unfold nextSplitStep at h
    split at h
    · exact h0 x v h
    · rw [alookup_cons] at h
      by_cases hx : x = n.name
      · rw [if_pos hx] at h
        have hmin : listMin ((nodeConsumers g n).filterMap
            (fun c => (alookup c ns0).getD none)) = some v := by
          injection h
        have hv := listMin_mem hmin
        rw [List.mem_filterMap] at hv
        obtain ⟨c, _, hc⟩ := hv
        exact h0 c v (getD_none_eq_some hc)
      · rw [if_neg hx] at h
        exact h0 x v h

theorem computeNextSplit_bound {g : Graph} {direct : List (String × Nat)}
    {K : Nat} (hd : RangeBound K direct) :
    NSBound K (computeNextSplit g direct) := by
  apply nextSplit_fold_bound g direct hd
  intro x v h
  rw [alookup_map_value, Option.map_eq_some'] at h
  obtain ⟨a, ha, hae⟩ := h
  cases hae
  exact hd x v ha

theorem inclusive_fold_range (g : Graph) (ns : List (String × Option Nat))
    {K : Nat} (hK : 0 < K) (hns : NSBound K ns) (l : List Node)
    (asg : List (String × Nat)) (h0 : RangeBound K asg) :
    RangeBound K (l.foldl (inclusiveStep g ns) asg) := by
  induction l generalizing asg with
  | nil => exact h0
  | cons n rest ih =>
    rw [List.foldl_cons]
    apply ih
    unfold inclusiveStep
    split
    · exact h0
    · split
      · rename_i m hm
        have hv := listMax_mem hm
        rw [List.mem_filterMap] at hv
        obtain ⟨p, _, hp⟩ := hv
        exact range_append h0 (h0 p m hp)
      · split
        · rename_i hns'
          exact range_append h0 (hns _ _ (getD_none_eq_some hns'))
        · exact range_append h0 hK

theorem numSplits_pos {sa : List (String × Nat)} (h : sa ≠ []) :
    0 < numSplits sa := by
  rw [numSplits]
  apply List.length_pos.mpr
  cases sa with
  | nil => exact absurd rfl h
  | cons kv rest =>
    exact List.ne_nil_of_mem (List.mem_dedup.mpr (List.mem_map.mpr
      ⟨kv, List.mem_cons_self _ _, rfl⟩))

theorem mainAssignments_true (g : Graph) (sa : List (String × Nat)) :
    mainAssignments g sa true =
      inclusivePass g
        (computeNextSplit g (directAssignments g sa (namespaceDepth sa)))
        (directAssignments g sa (namespaceDepth sa)) := rfl

theorem mainAssignments_false (g : Graph) (sa : List (String × Nat)) :
    mainAssignments g sa false =
      castPass g (exclusivePass g
        (computeNextSplit g (directAssignments g sa (namespaceDepth sa)))
        (directAssignments g sa (namespaceDepth sa))) := rfl

theorem assignNodes_eq (g : Graph) (sa : List (String × Nat)) (b : Bool) :
    assignNodes g sa b =
      (mainAssignments g sa b).map (fun kv => (kv.1, Assignment.single kv.2)) ++
        (constantAssignments g (mainAssignments g sa b)).map
          (fun kv => (kv.1, Assignment.multi kv.2)) := rfl

/-- C1, amended: under the inclusive policy every node of the (identity
simplified) input graph that is not a Constant-kind node is assigned exactly
one partition index in the range below `num_splits`, provided the supplied
split-assignment map is non-empty and its partition indices are below
`num_splits`.  (Constant-kind nodes instead receive the set of their assigned
consumers' partitions, which may be empty or hold several indices.) -/
theorem c1_amended_inclusive_completeness (g : Graph) (sa : List (String × Nat))
    (n : Node) (hne : sa ≠ []) (hval : ∀ v ∈ sa.map Prod.snd, v < numSplits sa)
    (hn : n ∈ g.nodes) (hc : n.opType ≠ "Constant") :
    ∃ p, alookup n.name (assignNodes g sa true) = some (Assignment.single p) ∧
      p < numSplits sa := by
  have hd : RangeBound (numSplits sa) (directAssignments g sa (namespaceDepth sa)) :=
    directAssignments_range hval
  have hrange : RangeBound (numSplits sa) (mainAssignments g sa true) := by
    rw [mainAssignments_true, inclusivePass]
    exact inclusive_fold_range _ _ (numSplits_pos hne) (computeNextSplit_bound hd)
      _ _ hd
  have htot : (alookup n.name (mainAssignments g sa true)).isSome := by
    rw [mainAssignments_true, inclusivePass]
    obtain ⟨l1, l2, he⟩ := List.append_of_mem hn
    rw [he, List.foldl_append, List.foldl_cons]
    have h1 := inclusiveStep_assigns g
      (computeNextSplit g (directAssignments g sa (namespaceDepth sa)))
      (l1.foldl (inclusiveStep g
        (computeNextSplit g (directAssignments g sa (namespaceDepth sa))))
        (directAssignments g sa (namespaceDepth sa))) n hc
    obtain ⟨p, hp⟩ := Option.isSome_iff_exists.mp h1
    rw [foldl_alookup_mono (inclusiveStep_append g _) l2 _ hp]
    rfl
  obtain ⟨p, hp⟩ := Option.isSome_iff_exists.mp htot
  refine ⟨p, ?_, hrange _ _ hp⟩
  rw [assignNodes_eq]
  apply alookup_append_some
  rw [alookup_map_value, hp]
  rfl

/-- Witness for the amended C1 theorem at the chain graph and node `A`. -/
theorem c1_amended_inclusive_completeness_witness :
    (chainSA ≠ [] ∧ (∀ v ∈ chainSA.map Prod.snd, v < numSplits chainSA) ∧
      chainA ∈ chainG.nodes ∧ chainA.opType ≠ "Constant") ∧
    ∃ p, alookup chainA.name (assignNodes chainG chainSA true) =
        some (Assignment.single p) ∧ p < numSplits chainSA :=
  ⟨⟨by decide, by decide, by decide, by decide⟩,
    c1_amended_inclusive_completeness chainG chainSA chainA (by decide)
      (by decide) (by decide) (by decide)⟩

theorem nextSplit_none_not_direct {g : Graph} {direct : List (String × Nat)}
    {x : String} (h : alookup x (computeNextSplit g direct) = some none) :
    alookup x direct = none := by
  rw [computeNextSplit] at h
  have inv : ∀ (l : List Node) (ns0 : List (String × Option Nat)),
      (∀ y, alookup y ns0 = some none → alookup y direct = none) →
      ∀ y, alookup y (l.foldl (nextSplitStep g direct) ns0) = some none →
        alookup y direct = none := by
    intro l
    induction l with
    | nil => exact fun ns0 h0 y hy => h0 y hy
    | cons n rest ih =>
      intro ns0 h0 y hy
      rw [List.foldl_cons] at hy
      refine ih _ ?_ y hy
      intro z hz
      unfold nextSplitStep at hz
      split at hz
      · exact h0 z hz
      · rename_i hguard
        rw [alookup_cons] at hz
        by_cases hzx : z = n.name
        · rw [if_pos hzx] at hz
          subst hzx
          push_neg at hguard
          exact Option.not_isSome_iff_eq_none.mp hguard.1
        · rw [if_neg hzx] at hz
          exact h0 z hz
  refine inv g.nodes.reverse _ ?_ x h
  intro y hy
  rw [alookup_map_value, Option.map_eq_some'] at hy
  obtain ⟨a, _, hae⟩ := hy
  cases hae

theorem exclusiveStep_none (g : Graph) (ns : List (String × Option Nat))
    (a : List (String × Nat)) (n : Node)
    (hns : (alookup n.name ns).getD none = none) :
    exclusiveStep g ns a n = a := by
  unfold exclusiveStep
  split
  · rfl
  · rw [hns]

theorem castStep_skip (g : Graph) (a : List (String × Nat)) (n : Node)
    (hc : n.opType ≠ "Cast") : castStep g a n = a := by
  unfold castStep
  rw [if_pos (Or.inr (Or.inl hc))]

theorem constantAssignments_keys {g : Graph} {asg : List (String × Nat)} :
    ∀ kv ∈ constantAssignments g asg,
      ∃ m ∈ g.nodes, m.name = kv.1 ∧ m.opType = "Constant" := by
  intro kv hkv
  rw [constantAssignments, List.mem_filterMap] at hkv
  obtain ⟨m, hm, hme⟩ := hkv
  rw [List.mem_filter] at hm
  have hme' : (if ((nodeConsumers g m).filterMap (fun c => alookup c asg)).dedup = []
      then none
      else some (m.name,
        ((nodeConsumers g m).filterMap (fun c => alookup c asg)).dedup)) =
      some kv := hme
  split at hme'
  · cases hme'
  · cases hme'
    exact ⟨m, hm.1, rfl, of_decide_eq_true hm.2⟩

theorem addNodeInput_nodes (g : Graph) (p : Nat)
    (acc : SplitDag × List (String × Nat)) (t : String) :
    (addNodeInput g p acc t).1.nodes = acc.1.nodes := by
  unfold addNodeInput
  split
  · rfl
  · split
    · rfl
    · split
      · split
        · split
          · rfl
          · rfl
        · split
          · rfl
          · rfl
      · split
        · rfl
        · rfl

theorem inputFold_nodes (g : Graph) (p : Nat) (ts : List String)
    (acc : SplitDag × List (String × Nat)) :
    ((ts.foldl (addNodeInput g p) acc).1).nodes = acc.1.nodes := by
  induction ts generalizing acc with
  | nil => rfl
  | cons t rest ih =>
    rw [List.foldl_cons, ih, addNodeInput_nodes]

theorem markNodeOutput_nodes (g : Graph) (asg : List (String × Assignment))
    (p : Nat) (acc : SplitDag × List (String × Nat)) (t : String) :
    (markNodeOutput g asg p acc t).1.nodes = acc.1.nodes := by
  simp only [markNodeOutput]
  split_ifs <;> rfl

theorem outputFold_nodes (g : Graph) (asg : List (String × Assignment))
    (p : Nat) (ts : List String) (acc : SplitDag × List (String × Nat)) :
    ((ts.foldl (markNodeOutput g asg p) acc).1).nodes = acc.1.nodes := by
  induction ts generalizing acc with
  | nil => rfl
  | cons t rest ih =>
    rw [List.foldl_cons, ih, markNodeOutput_nodes]

theorem addConstantCopies_nodes_sub {n : Node} {ps : List Nat}
    {dags dags' : List SplitDag} (h : addConstantCopies n ps dags = .ok dags') :
    ∀ sd' ∈ dags', ∀ m ∈ sd'.nodes, (∃ sd ∈ dags, m ∈ sd.nodes) ∨ m = n := by
  induction ps generalizing dags with
  | nil =>
    cases h
    intro sd' hsd' m hm
    exact Or.inl ⟨sd', hsd', hm⟩
  | cons idx rest ih =>
    unfold addConstantCopies at h
    split at h
    · cases h
    · rename_i sd hsd
      intro sd' hsd' m hm
      rcases ih h sd' hsd' m hm with ⟨sd2, hsd2, hm2⟩ | he
      · rcases List.mem_or_eq_of_mem_set hsd2 with hin | heq
        · exact Or.inl ⟨sd2, hin, hm2⟩
        · subst heq
          rcases List.mem_append.mp hm2 with h1 | h2
          · exact Or.inl ⟨sd, List.get?_mem hsd, h1⟩
          · right
            simpa using h2
      · exact Or.inr he

theorem materializeNode_nodes_sub {g : Graph} {asg : List (String × Assignment)}
    {st : MatState} {n : Node} {st' : MatState}
    (h : materializeNode g asg st n = Except.ok st') :
    ∀ sd' ∈ st'.dags, ∀ m ∈ sd'.nodes,
      (∃ sd ∈ st.dags, m ∈ sd.nodes) ∨
        (m = n ∧ (alookup n.name asg).isSome) := by
  unfold materializeNode at h
  split at h
  · cases h
    intro sd' hsd' m hm
    exact Or.inl ⟨sd', hsd', hm⟩
  · rename_i p hp
    split at h
    · cases h
    · rename_i sd hsd
      cases h
      intro sd' hsd' m hm
      rcases List.mem_or_eq_of_mem_set hsd' with hin | heq
      · exact Or.inl ⟨sd', hin, hm⟩
      · subst heq
        rw [outputFold_nodes] at hm
        have hm2 : m ∈ (n.inputs.foldl (addNodeInput g p)
            (sd, st.missingVI)).1.nodes ++ [n] := hm
        rw [inputFold_nodes] at hm2
        rcases List.mem_append.mp hm2 with h1 | h2
        · exact Or.inl ⟨sd, List.get?_mem hsd, h1⟩
        · right
          refine ⟨by simpa using h2, ?_⟩
          rw [hp]
          rfl
  · rename_i ps hp
    split at h
    · cases h
    · rename_i dags hd
      cases h
      intro sd' hsd' m hm
      rcases addConstantCopies_nodes_sub hd sd' hsd' m hm with hin | he
      · exact Or.inl hin
      · right
        refine ⟨he, ?_⟩
        rw [hp]
        rfl

theorem materializeList_nodes_assigned {g : Graph}
    {asg : List (String × Assignment)} {l : List Node} {st st' : MatState}
    (h : materializeList g asg l st = Except.ok st')
    (hinv : ∀ sd ∈ st.dags, ∀ m ∈ sd.nodes, (alookup m.name asg).isSome) :
    ∀ sd ∈ st'.dags, ∀ m ∈ sd.nodes, (alookup m.name asg).isSome := by
  induction l generalizing st with
  | nil =>
    cases h
    exact hinv
  | cons n rest ih =>
    unfold materializeList at h
    split at h
    · cases h
    · rename_i st1 h1
      refine ih h ?_
      intro sd hsd m hm
      rcases materializeNode_nodes_sub h1 sd hsd m hm with ⟨sd2, hsd2, hm2⟩ | ⟨he, hs⟩
      · exact hinv sd2 hsd2 m hm2
      · subst he
        exact hs

theorem materializeAll_excludes_unassigned {g : Graph}
    {asg : List (String × Assignment)} {k : Nat} {st : MatState} {x : String}
    (h : materializeAll g asg k = Except.ok st) (hx : alookup x asg = none) :
    ∀ sd ∈ st.dags, ∀ m ∈ sd.nodes, m.name ≠ x := by
  intro sd hsd m hm he
  have hs := materializeList_nodes_assigned h ?_ sd hsd m hm
  · rw [he, hx] at hs
    cases hs
  · intro sd0 hsd0 m0 hm0
    have : sd0 = emptySplitDag := List.eq_of_mem_replicate hsd0
    rw [this] at hm0
    cases hm0

/-- C3, amended: under the exclusive policy, every node that is neither
Constant-kind nor a Cast node and whose `next_split` value is none (no
descendant is ever directly assigned) is left unassigned and appears in no
output sub-graph — a single-consumer Cast node in that position may instead
inherit its parent's partition through the reconciliation pass.  In
particular, on the chain `A -> B -> C -> D` with assignment `B` to 0 and `C`
to 1, node D is dropped, and node A (a parentless node whose inputs are not
all constant-valued) also remains unassigned and is dropped. -/
theorem c3_amended_exclusive_drops :
    (∀ (g : Graph) (sa : List (String × Nat)) (n : Node),
      (g.nodes.map Node.name).Nodup → n ∈ g.nodes →
      n.opType ≠ "Constant" → n.opType ≠ "Cast" →
      alookup n.name (computeNextSplit g
        (directAssignments g sa (namespaceDepth sa))) = some none →
      alookup n.name (assignNodes g sa false) = none ∧
      ∀ k st, materializeAll g (assignNodes g sa false) k = Except.ok st →
        ∀ sd ∈ st.dags, ∀ m ∈ sd.nodes, m.name ≠ n.name) ∧
    alookup "A" (assignNodes chainG chainSA false) = none ∧
    alookup "D" (assignNodes chainG chainSA false) = none ∧
    excludedFrom (materializeAll chainG (assignNodes chainG chainSA false)
      (numSplits chainSA)) "A" = true ∧
    excludedFrom (materializeAll chainG (assignNodes chainG chainSA false)
      (numSplits chainSA)) "D" = true := by
  constructor
  · intro g sa n hnd hn hc hcast hns
    have hdirect : alookup n.name
        (directAssignments g sa (namespaceDepth sa)) = none :=
      nextSplit_none_not_direct hns
    have hgetd : (alookup n.name (computeNextSplit g
        (directAssignments g sa (namespaceDepth sa)))).getD none = none := by
      rw [hns]
      rfl
    have hexcl : alookup n.name (exclusivePass g
        (computeNextSplit g (directAssignments g sa (namespaceDepth sa)))
        (directAssignments g sa (namespaceDepth sa))) = none := by
      rw [exclusivePass]
      apply foldl_alookup_none (exclusiveStep_append g _) _ _ _ hdirect
      intro a m hm hname ha
      have hmn : m = n := List.inj_on_of_nodup_map hnd hm hn (by rw [hname])
      rw [hmn, exclusiveStep_none _ _ _ _ hgetd]
      exact ha
    have hcastp : alookup n.name (mainAssignments g sa false) = none := by
      rw [mainAssignments_false, castPass]
      apply foldl_alookup_none (castStep_append g) _ _ _ hexcl
      intro a m hm hname ha
      have hmn : m = n := List.inj_on_of_nodup_map hnd hm hn (by rw [hname])
      rw [hmn, castStep_skip g a n hcast]
      exact ha
    have hassign : alookup n.name (assignNodes g sa false) = none := by
      rw [assignNodes_eq]
      rw [alookup_append_none]
      · apply alookup_none_of_keys
        intro kv hkv
        rw [List.mem_map] at hkv
        obtain ⟨kv0, hkv0, hkve⟩ := hkv
        obtain ⟨m, hm, hmname, hmconst⟩ := constantAssignments_keys kv0 hkv0
        subst hkve
        intro hke
        have hmn : m = n :=
          List.inj_on_of_nodup_map hnd hm hn (by rw [hmname]; exact hke)
        rw [hmn] at hmconst
        exact hc hmconst
      · rw [alookup_map_value, hcastp]
        rfl
    exact ⟨hassign, fun k st hst =>
      materializeAll_excludes_unassigned hst hassign⟩
  · exact ⟨by decide, by decide, by decide, by decide⟩

/-- Witness for the amended C3 theorem at the chain graph and node `D`. -/
theorem c3_amended_exclusive_drops_witness :
    ((chainG.nodes.map Node.name).Nodup ∧ chainD ∈ chainG.nodes ∧
      chainD.opType ≠ "Constant" ∧ chainD.opType ≠ "Cast" ∧
      alookup chainD.name (computeNextSplit chainG
        (directAssignments chainG chainSA (namespaceDepth chainSA))) =
        some none) ∧
    alookup chainD.name (assignNodes chainG chainSA false) = none :=
  ⟨⟨by decide, by decide, by decide, by decide, by decide⟩,
    (c3_amended_exclusive_drops.1 chainG chainSA chainD (by decide) (by decide)
      (by decide) (by decide) (by decide)).1⟩

/-- Sub-graph growth: every registered name and node of the first sub-graph
is still present in the second. -/
def SdLe (sd sd' : SplitDag) : Prop :=
  sd.nodes ⊆ sd'.nodes ∧ sd.outputs ⊆ sd'.outputs ∧
    sd.typedInputs ⊆ sd'.typedInputs ∧ sd.untypedInputs ⊆ sd'.untypedInputs ∧
    sd.initFacets ⊆ sd'.initFacets ∧ sd.valueInfos ⊆ sd'.valueInfos

theorem sdLe_refl (sd : SplitDag) : SdLe sd sd :=
  ⟨List.Subset.refl _, List.Subset.refl _, List.Subset.refl _,
    List.Subset.refl _, List.Subset.refl _, List.Subset.refl _⟩

theorem sdLe_trans {a b c : SplitDag} (h1 : SdLe a b) (h2 : SdLe b c) :
    SdLe a c :=
  ⟨h1.1.trans h2.1, h1.2.1.trans h2.2.1, h1.2.2.1.trans h2.2.2.1,
    h1.2.2.2.1.trans h2.2.2.2.1, h1.2.2.2.2.1.trans h2.2.2.2.2.1,
    h1.2.2.2.2.2.trans h2.2.2.2.2.2⟩

/-- Materialization-state growth: same number of sub-graphs, each sub-graph
grows, and the deferred list grows. -/
def MatLe (st st' : MatState) : Prop :=
  st.dags.length = st'.dags.length ∧
    (∀ j sd, st.dags.get? j = some sd →
      ∃ sd', st'.dags.get? j = some sd' ∧ SdLe sd sd') ∧
    st.missingVI ⊆ st'.missingVI

theorem matLe_refl (st : MatState) : MatLe st st :=
  ⟨rfl, fun _ sd h => ⟨sd, h, sdLe_refl sd⟩, List.Subset.refl _⟩

theorem matLe_trans {a b c : MatState} (h1 : MatLe a b) (h2 : MatLe b c) :
    MatLe a c := by
  refine ⟨h1.1.trans h2.1, ?_, h1.2.2.trans h2.2.2⟩
  intro j sd h
  obtain ⟨sd1, hsd1, hle1⟩ := h1.2.1 j sd h
  obtain ⟨sd2, hsd2, hle2⟩ := h2.2.1 j sd1 hsd1
  exact ⟨sd2, hsd2, sdLe_trans hle1 hle2⟩

theorem addNodeInput_le (g : Graph) (p : Nat)
    (acc : SplitDag × List (String × Nat)) (t : String) :
    SdLe acc.1 (addNodeInput g p acc t).1 ∧ acc.2 ⊆ (addNodeInput g p acc t).2 := by
  unfold addNodeInput
  split_ifs <;>
    exact ⟨⟨by first | exact List.Subset.refl _ | exact List.subset_append_left _ _,
            by first | exact List.Subset.refl _ | exact List.subset_append_left _ _,
            by first | exact List.Subset.refl _ | exact List.subset_append_left _ _,
            by first | exact List.Subset.refl _ | exact List.subset_append_left _ _,
            by first | exact List.Subset.refl _ | exact List.subset_append_left _ _,
            by first | exact List.Subset.refl _ | exact List.subset_append_left _ _⟩,
          by first | exact List.Subset.refl _ | exact List.subset_append_left _ _⟩

theorem inputFold_le (g : Graph) (p : Nat) (ts : List String)
    (acc : SplitDag × List (String × Nat)) :
    SdLe acc.1 ((ts.foldl (addNodeInput g p) acc).1) ∧
      acc.2 ⊆ (ts.foldl (addNodeInput g p) acc).2 := by
  induction ts generalizing acc with
  | nil => exact ⟨sdLe_refl _, List.Subset.refl _⟩
  | cons t rest ih =>
    rw [List.foldl_cons]
    obtain ⟨h1, h2⟩ := addNodeInput_le g p acc t
    obtain ⟨h3, h4⟩ := ih (addNodeInput g p acc t)
    exact ⟨sdLe_trans h1 h3, h2.trans h4⟩

theorem markNodeOutput_le (g : Graph) (asg : List (String × Assignment))
    (p : Nat) (acc : SplitDag × List (String × Nat)) (t : String) :
    SdLe acc.1 (markNodeOutput g asg p acc t).1 ∧
      acc.2 ⊆ (markNodeOutput g asg p acc t).2 := by
  simp only [markNodeOutput]
  split_ifs <;>
    exact ⟨⟨by first | exact List.Subset.refl _ | exact List.subset_append_left _ _,
            by first | exact List.Subset.refl _ | exact List.subset_append_left _ _,
            by first | exact List.Subset.refl _ | exact List.subset_append_left _ _,
            by first | exact List.Subset.refl _ | exact List.subset_append_left _ _,
            by first | exact List.Subset.refl _ | exact List.subset_append_left _ _,
            by first | exact List.Subset.refl _ | exact List.subset_append_left _ _⟩,
          by first | exact List.Subset.refl _ | exact List.subset_append_left _ _⟩

theorem outputFold_le (g : Graph) (asg : List (String × Assignment)) (p : Nat)
    (ts : List String) (acc : SplitDag × List (String × Nat)) :
    SdLe acc.1 ((ts.foldl (markNodeOutput g asg p) acc).1) ∧
      acc.2 ⊆ (ts.foldl (markNodeOutput g asg p) acc).2 := by
  induction ts generalizing acc with
  | nil => exact ⟨sdLe_refl _, List.Subset.refl _⟩
  | cons t rest ih =>
    rw [List.foldl_cons]
    obtain ⟨h1, h2⟩ := markNodeOutput_le g asg p acc t
    obtain ⟨h3, h4⟩ := ih (markNodeOutput g asg p acc t)
    exact ⟨sdLe_trans h1 h3, h2.trans h4⟩

theorem get?_some_lt {α : Type} {l : List α} {i : Nat} {a : α}
    (h : l.get? i = some a) : i < l.length := by
  by_contra hge
  rw [List.get?_eq_none.mpr (Nat.le_of_not_lt hge)] at h
  cases h

/-- Complete description of constant replication (split.py lines 249-252):
the split list keeps its length, each listed index existed, the target
sub-graphs gain exactly the copies of the node, and every other field of
every sub-graph is untouched. -/
theorem addConstantCopies_spec {n : Node} {ps : List Nat}
    {dags dags' : List SplitDag} (h : addConstantCopies n ps dags = .ok dags') :
    dags'.length = dags.length ∧ (∀ i ∈ ps, i < dags.length) ∧
    ∀ j, (dags.get? j = none ∧ dags'.get? j = none) ∨
      ∃ sd sd', dags.get? j = some sd ∧ dags'.get? j = some sd' ∧
        sd.nodes ⊆ sd'.nodes ∧
        (∀ m ∈ sd'.nodes, m ∈ sd.nodes ∨ (m = n ∧ j ∈ ps)) ∧
        (j ∈ ps → n ∈ sd'.nodes) ∧
        sd'.outputs = sd.outputs ∧ sd'.typedInputs = sd.typedInputs ∧
        sd'.untypedInputs = sd.untypedInputs ∧
        sd'.initFacets = sd.initFacets ∧ sd'.valueInfos = sd.valueInfos := by
  induction ps generalizing dags with
  | nil =>
    have hd : dags' = dags := by
      have h' : (Except.ok dags : Except MatError (List SplitDag)) = Except.ok dags' := h
      injection h' with hh
      exact hh.symm
    rw [hd]
    refine ⟨rfl, fun i hi => absurd hi (List.not_mem_nil i), fun j => ?_⟩
    cases hj : dags.get? j with
    | none => exact Or.inl ⟨rfl, rfl⟩
    | some sd =>
      exact Or.inr ⟨sd, sd, rfl, rfl, List.Subset.refl _,
        fun m hm => Or.inl hm, fun hj' => absurd hj' (List.not_mem_nil _),
        rfl, rfl, rfl, rfl, rfl⟩
  | cons idx rest ih =>
    unfold addConstantCopies at h
    split at h
    · cases h
    · rename_i sd0 hsd0
      have hidx : idx < dags.length := get?_some_lt hsd0
      obtain ⟨hlen, hbnd, hspec⟩ := ih h
      refine ⟨by rw [hlen, List.length_set], ?_, ?_⟩
      · intro i hi
        rcases List.mem_cons.mp hi with he | hm
        · rw [he]
          exact hidx
        · have := hbnd i hm
          rwa [List.length_set] at this
      · intro j
        by_cases hj : j = idx
        · subst hj
          rcases hspec j with ⟨h1, _⟩ | ⟨sdm, sd', hm1, hm2, hsub, hfwd, hin, he1, he2, he3, he4, he5⟩
          · rw [List.get?_set_eq_of_lt _ hidx] at h1
            cases h1
          · rw [List.get?_set_eq_of_lt _ hidx] at hm1
            have hsdm : sdm = { sd0 with nodes := sd0.nodes ++ [n] } := by
              injection hm1 with hh
              rw [hh]
            subst hsdm
            refine Or.inr ⟨sd0, sd', hsd0, hm2, ?_, ?_, ?_, he1, he2, he3, he4, he5⟩
            · exact (List.subset_append_left _ _).trans hsub
            · intro m hm
              rcases hfwd m hm with hmem | ⟨hme, hjr⟩
              · rcases List.mem_append.mp hmem with h1 | h2
                · exact Or.inl h1
                · exact Or.inr ⟨by simpa using h2, List.mem_cons_self _ _⟩
              · exact Or.inr ⟨hme, List.mem_cons_of_mem _ hjr⟩
            · intro _
              exact hsub (List.mem_append.mpr (Or.inr (List.mem_cons_self _ _)))
        · rcases hspec j with ⟨h1, h2⟩ | ⟨sdm, sd', hm1, hm2, hsub, hfwd, hin, he1, he2, he3, he4, he5⟩
          · rw [List.get?_set_ne _ _ (fun he => hj he.symm)] at h1
            exact Or.inl ⟨h1, h2⟩
          · rw [List.get?_set_ne _ _ (fun he => hj he.symm)] at hm1
            refine Or.inr ⟨sdm, sd', hm1, hm2, hsub, ?_, ?_, he1, he2, he3, he4, he5⟩
            · intro m hm
              rcases hfwd m hm with hmem | ⟨hme, hjr⟩
              · exact Or.inl hmem
              · exact Or.inr ⟨hme, List.mem_cons_of_mem _ hjr⟩
            · intro hjm
              rcases List.mem_cons.mp hjm with he | hm
              · exact absurd he hj
              · exact hin hm

theorem materializeList_append (g : Graph) (asg : List (String × Assignment))
    (l1 l2 : List Node) (st : MatState) :
    materializeList g asg (l1 ++ l2) st =
      match materializeList g asg l1 st with
      | .error e => .error e
      | .ok st1 => materializeList g asg l2 st1 := by
  induction l1 generalizing st with
  | nil => rfl
  | cons n rest ih =>
    rw [List.cons_append]
    simp only [materializeList]
    cases hm : materializeNode g asg st n with
    | error e => rfl
    | ok st1 => exact ih st1

theorem materializeNode_le {g : Graph} {asg : List (String × Assignment)}
    {st : MatState} {n : Node} {st' : MatState}
    (h : materializeNode g asg st n = Except.ok st') : MatLe st st' := by
  unfold materializeNode at h
  split at h
  · cases h
    exact matLe_refl _
  · rename_i p hp
    split at h
    · cases h
    · rename_i sd hsd
      cases h
      have hlt : p < st.dags.length := get?_some_lt hsd
      refine ⟨(List.length_set _ _ _).symm, ?_, ?_⟩
      · intro j sd2 hsd2
        by_cases hj : j = p
        · rw [hj] at hsd2 ⊢
          have hsd2e : sd2 = sd := by
            rw [hsd] at hsd2
            injection hsd2 with hh
            exact hh.symm
          rw [hsd2e]
          refine ⟨_, List.get?_set_eq_of_lt _ hlt, ?_⟩
          refine sdLe_trans ?_ (outputFold_le g asg p n.outputs _).1
          refine sdLe_trans (inputFold_le g p n.inputs (sd, st.missingVI)).1 ?_
          exact ⟨List.subset_append_left _ _, List.Subset.refl _,
            List.Subset.refl _, List.Subset.refl _, List.Subset.refl _,
            List.Subset.refl _⟩
        · refine ⟨sd2, ?_, sdLe_refl _⟩
          rw [List.get?_set_ne _ _ (fun he => hj he.symm)]
          exact hsd2
      · exact (inputFold_le g p n.inputs (sd, st.missingVI)).2.trans
          (outputFold_le g asg p n.outputs
            ({ (n.inputs.foldl (addNodeInput g p) (sd, st.missingVI)).1 with
                nodes := (n.inputs.foldl (addNodeInput g p)
                  (sd, st.missingVI)).1.nodes ++ [n] },
              (n.inputs.foldl (addNodeInput g p) (sd, st.missingVI)).2)).2
  · rename_i ps hp
    split at h
    · cases h
    · rename_i dags2 hd
      cases h
      obtain ⟨hlen, hbnd, hspec⟩ := addConstantCopies_spec hd
      refine ⟨hlen.symm, ?_, List.Subset.refl _⟩
      intro j sd2 hsd2
      rcases hspec j with ⟨h1, _⟩ | ⟨sdA, sdB, hA, hB, hsub, _, _, he1, he2, he3, he4, he5⟩
      · rw [h1] at hsd2
        cases hsd2
      · have hsd2e : sd2 = sdA := by
          rw [hA] at hsd2
          injection hsd2 with hh
          exact hh.symm
        rw [hsd2e]
        refine ⟨sdB, hB, hsub, ?_, ?_, ?_, ?_, ?_⟩
        · rw [he1]
          exact List.Subset.refl _
        · rw [he2]
          exact List.Subset.refl _
        · rw [he3]
          exact List.Subset.refl _
        · rw [he4]
          exact List.Subset.refl _
        · rw [he5]
          exact List.Subset.refl _

theorem materializeList_le {g : Graph} {asg : List (String × Assignment)}
    {l : List Node} {st st' : MatState}
    (h : materializeList g asg l st = Except.ok st') : MatLe st st' := by
  induction l generalizing st with
  | nil =>
    have h' : (Except.ok st : Except MatError MatState) = Except.ok st' := h
    injection h' with hh
    rw [← hh]
    exact matLe_refl _
  | cons n rest ih =>
    unfold materializeList at h
    split at h
    · cases h
    · rename_i st1 h1
      exact matLe_trans (materializeNode_le h1) (ih h)

theorem foldl_keys_preserved {step : List (String × Nat) → Node → List (String × Nat)}
    (Q : String → Prop) (l : List Node)
    (hstep : ∀ a n, n ∈ l → step a n = a ∨
      (Q n.name ∧ ∃ v, step a n = a ++ [(n.name, v)]))
    (asg : List (String × Nat)) (h0 : ∀ kv ∈ asg, Q kv.1) :
    ∀ kv ∈ l.foldl step asg, Q kv.1 := by
  induction l generalizing asg with
  | nil => exact h0
  | cons n rest ih =>
    rw [List.foldl_cons]
    refine ih (fun a m hm => hstep a m (List.mem_cons_of_mem _ hm)) _ ?_
    rcases hstep asg n (List.mem_cons_self _ _) with he | ⟨hq, v, he⟩
    · rw [he]
      exact h0
    · rw [he]
      intro kv hkv
      rcases List.mem_append.mp hkv with h1 | h2
      · exact h0 kv h1
      · have hke : kv = (n.name, v) := by simpa using h2
        rw [hke]
        exact hq

theorem inclusiveStep_cases (g : Graph) (ns : List (String × Option Nat))
    (a : List (String × Nat)) (n : Node) :
    inclusiveStep g ns a n = a ∨
      (n.opType ≠ "Constant" ∧ ∃ v, inclusiveStep g ns a n = a ++ [(n.name, v)]) := by
  unfold inclusiveStep
  split
  · left
    rfl
  · rename_i hguard
    push_neg at hguard
    split
    · exact Or.inr ⟨hguard.2, _, rfl⟩
    · split
      · exact Or.inr ⟨hguard.2, _, rfl⟩
      · exact Or.inr ⟨hguard.2, _, rfl⟩

theorem exclusiveStep_cases (g : Graph) (ns : List (String × Option Nat))
    (a : List (String × Nat)) (n : Node) :
    exclusiveStep g ns a n = a ∨
      (n.opType ≠ "Constant" ∧ ∃ v, exclusiveStep g ns a n = a ++ [(n.name, v)]) := by
  unfold exclusiveStep
  split
  · left
    rfl
  · rename_i hguard
    push_neg at hguard
    split
    · left
      rfl
    · split
      · exact Or.inr ⟨hguard.2, _, rfl⟩
      · split
        · exact Or.inr ⟨hguard.2, _, rfl⟩
        · left
          rfl

theorem castStep_cases (g : Graph) (a : List (String × Nat)) (n : Node) :
    castStep g a n = a ∨
      (n.opType ≠ "Constant" ∧ ∃ v, castStep g a n = a ++ [(n.name, v)]) := by
  have hcc : ("Cast" : String) ≠ "Constant" := by decide
  unfold castStep
  split
  · left
    rfl
  · rename_i hguard
    push_neg at hguard
    have hcast : n.opType ≠ "Constant" := by
      rw [hguard.2.1]
      exact hcc
    split
    · split
      · exact Or.inr ⟨hcast, _, rfl⟩
      · left
        rfl
    · split
      · split
        · exact Or.inr ⟨hcast, _, rfl⟩
        · left
          rfl
      · left
        rfl

theorem directAssignments_keys {g : Graph} {sa : List (String × Nat)}
    {depth : Nat} :
    ∀ kv ∈ directAssignments g sa depth,
      ∃ m ∈ g.nodes, m.name = kv.1 ∧ m.opType ≠ "Constant" := by
  intro kv hkv
  rw [directAssignments, List.mem_filterMap] at hkv
  obtain ⟨m, hm, hme⟩ := hkv
  split at hme
  · cases hme
  · rename_i hc
    rw [Option.map_eq_some'] at hme
    obtain ⟨p, _, hpe⟩ := hme
    rw [← hpe]
    exact ⟨m, hm, rfl, hc⟩

theorem mainAssignments_keys (g : Graph) (sa : List (String × Nat)) (b : Bool) :
    ∀ kv ∈ mainAssignments g sa b,
      ∃ m ∈ g.nodes, m.name = kv.1 ∧ m.opType ≠ "Constant" := by
  cases b
  · rw [mainAssignments_false, castPass]
    apply foldl_keys_preserved
      (fun x => ∃ m ∈ g.nodes, m.name = x ∧ m.opType ≠ "Constant")
    · intro a m hm
      rcases castStep_cases g a m with he | ⟨hq, v, he⟩
      · exact Or.inl he
      · exact Or.inr ⟨⟨m, hm, rfl, hq⟩, v, he⟩
    · rw [exclusivePass]
      apply foldl_keys_preserved
        (fun x => ∃ m ∈ g.nodes, m.name = x ∧ m.opType ≠ "Constant")
      · intro a m hm
        rcases exclusiveStep_cases g _ a m with he | ⟨hq, v, he⟩
        · exact Or.inl he
        · exact Or.inr ⟨⟨m, hm, rfl, hq⟩, v, he⟩
      · exact directAssignments_keys
  · rw [mainAssignments_true, inclusivePass]
    apply foldl_keys_preserved
      (fun x => ∃ m ∈ g.nodes, m.name = x ∧ m.opType ≠ "Constant")
    · intro a m hm
      rcases inclusiveStep_cases g _ a m with he | ⟨hq, v, he⟩
      · exact Or.inl he
      · exact Or.inr ⟨⟨m, hm, rfl, hq⟩, v, he⟩
    · exact directAssignments_keys

theorem mainAssignments_constant_none {g : Graph} {sa : List (String × Nat)}
    {b : Bool} {n : Node} (hnd : (g.nodes.map Node.name).Nodup)
    (hn : n ∈ g.nodes) (hc : n.opType = "Constant") :
    alookup n.name (mainAssignments g sa b) = none := by
  cases hl : alookup n.name (mainAssignments g sa b) with
  | none => rfl
  | some v =>
    obtain ⟨m, hm, hmname, hmc⟩ := mainAssignments_keys g sa b _ (alookup_mem hl)
    have hmn : m = n := List.inj_on_of_nodup_map hnd hm hn (by rw [hmname])
    rw [hmn] at hmc
    exact absurd hc hmc

theorem alookup_keyed_filterMap {α : Type} (l : List Node) (opt : Node → Option α)
    (hnd : (l.map Node.name).Nodup) {n : Node} (hn : n ∈ l) :
    alookup n.name (l.filterMap (fun m => (opt m).map (fun v => (m.name, v)))) =
      opt n := by
  induction l with
  | nil => cases hn
  | cons m rest ih =>
    rw [List.map_cons, List.nodup_cons] at hnd
    rcases List.mem_cons.mp hn with he | hmem
    · subst he
      cases ho : opt n with
      | none =>
        simp only [List.filterMap_cons, ho, Option.map_none']
        apply alookup_none_of_keys
        intro kv hkv
        rw [List.mem_filterMap] at hkv
        obtain ⟨m2, hm2, hm2e⟩ := hkv
        rw [Option.map_eq_some'] at hm2e
        obtain ⟨v, _, hve⟩ := hm2e
        rw [← hve]
        intro hne
        have hne' : m2.name = n.name := hne
        exact hnd.1 (hne' ▸ List.mem_map.mpr ⟨m2, hm2, rfl⟩)
      | some v =>
        simp only [List.filterMap_cons, ho, Option.map_some']
        rw [alookup_cons, if_pos rfl]
    · have hmne : m.name ≠ n.name := by
        intro he
        exact hnd.1 (he ▸ List.mem_map.mpr ⟨n, hmem, rfl⟩)
      cases ho : opt m with
      | none =>
        simp only [List.filterMap_cons, ho, Option.map_none']
        exact ih hnd.2 hmem
      | some v =>
        simp only [List.filterMap_cons, ho, Option.map_some']
        rw [alookup_cons, if_neg (fun hh => hmne hh.symm)]
        exact ih hnd.2 hmem

theorem constantAssignments_lookup {g : Graph} {asg : List (String × Nat)}
    {n : Node} (hnd : (g.nodes.map Node.name).Nodup) (hn : n ∈ g.nodes)
    (hc : n.opType = "Constant") :
    alookup n.name (constantAssignments g asg) =
      (if ((nodeConsumers g n).filterMap (fun c => alookup c asg)).dedup = []
       then none
       else some (((nodeConsumers g n).filterMap
         (fun c => alookup c asg)).dedup)) := by
  have hshape : constantAssignments g asg =
      (g.nodes.filter (fun m => decide (m.opType = "Constant"))).filterMap
        (fun m => (if ((nodeConsumers g m).filterMap
              (fun c => alookup c asg)).dedup = []
            then none
            else some (((nodeConsumers g m).filterMap
              (fun c => alookup c asg)).dedup)).map (fun v => (m.name, v))) := by
    rw [constantAssignments]
    apply List.filterMap_congr
    intro m _
    show (if ((nodeConsumers g m).filterMap (fun c => alookup c asg)).dedup = []
          then none
          else some (m.name,
            ((nodeConsumers g m).filterMap (fun c => alookup c asg)).dedup)) =
        ((if ((nodeConsumers g m).filterMap (fun c => alookup c asg)).dedup = []
          then none
          else some (((nodeConsumers g m).filterMap
            (fun c => alookup c asg)).dedup)).map (fun v => (m.name, v)))
    by_cases hs : ((nodeConsumers g m).filterMap (fun c => alookup c asg)).dedup = []
    · rw [if_pos hs, if_pos hs]
      rfl
    · rw [if_neg hs, if_neg hs]
      rfl
  rw [hshape]
  apply alookup_keyed_filterMap
  · exact hnd.sublist ((List.filter_sublist _).map _)
  · exact List.mem_filter.mpr ⟨hn, by simp [hc]⟩

theorem assignNodes_constant_lookup {g : Graph} {sa : List (String × Nat)}
    {b : Bool} {n : Node} (hnd : (g.nodes.map Node.name).Nodup)
    (hn : n ∈ g.nodes) (hc : n.opType = "Constant") :
    alookup n.name (assignNodes g sa b) =
      (if ((nodeConsumers g n).filterMap
            (fun c => alookup c (mainAssignments g sa b))).dedup = []
       then none
       else some (Assignment.multi (((nodeConsumers g n).filterMap
            (fun c => alookup c (mainAssignments g sa b))).dedup))) := by
  rw [assignNodes_eq]
  rw [alookup_append_none]
  · rw [alookup_map_value, constantAssignments_lookup hnd hn hc]
    by_cases hs : ((nodeConsumers g n).filterMap
        (fun c => alookup c (mainAssignments g sa b))).dedup = []
    · rw [if_pos hs, if_pos hs]
      rfl
    · rw [if_neg hs, if_neg hs]
      rfl
  · rw [alookup_map_value, mainAssignments_constant_none hnd hn hc]
    rfl

theorem materializeNode_name_in {g : Graph} {asg : List (String × Assignment)}
    {st : MatState} {n0 : Node} {st' : MatState}
    (h : materializeNode g asg st n0 = Except.ok st') {x : String} {S : List Nat}
    (hx : alookup x asg = some (Assignment.multi S))
    (hinv : ∀ j sd, st.dags.get? j = some sd → ∀ m ∈ sd.nodes,
      m.name = x → j ∈ S) :
    ∀ j sd, st'.dags.get? j = some sd → ∀ m ∈ sd.nodes, m.name = x → j ∈ S := by
  unfold materializeNode at h
  split at h
  · cases h
    exact hinv
  · rename_i p hp
    split at h
    · cases h
    · rename_i sd hsd
      cases h
      intro j sd2 hsd2 m hm hmx
      by_cases hj : j = p
      · rw [hj] at hsd2
        rw [List.get?_set_eq_of_lt _ (get?_some_lt hsd)] at hsd2
        injection hsd2 with hh
        rw [← hh] at hm
        rw [outputFold_nodes] at hm
        have hm2 : m ∈ (n0.inputs.foldl (addNodeInput g p)
            (sd, st.missingVI)).1.nodes ++ [n0] := hm
        rw [inputFold_nodes] at hm2
        rcases List.mem_append.mp hm2 with h1 | h2
        · rw [hj]
          exact hinv p sd hsd m h1 hmx
        · have hme : m = n0 := by simpa using h2
          rw [hme] at hmx
          rw [hmx, hx] at hp
          cases hp
      · rw [List.get?_set_ne _ _ (fun he => hj he.symm)] at hsd2
        exact hinv j sd2 hsd2 m hm hmx
  · rename_i ps hp
    split at h
    · cases h
    · rename_i dags2 hd
      cases h
      intro j sd2 hsd2 m hm hmx
      obtain ⟨_, _, hspec⟩ := addConstantCopies_spec hd
      rcases hspec j with ⟨_, h2⟩ | ⟨sdA, sdB, hA, hB, _, hfwd, _, _⟩
      · rw [h2] at hsd2
        cases hsd2
      · rw [hB] at hsd2
        injection hsd2 with hh
        rw [← hh] at hm
        rcases hfwd m hm with h1 | ⟨hme, hjps⟩
        · exact hinv j sdA hA m h1 hmx
        · rw [hme] at hmx
          rw [hmx, hx] at hp
          injection hp with hh2
          injection hh2 with hh3
          rw [hh3]
          exact hjps

theorem materializeList_name_in {g : Graph} {asg : List (String × Assignment)}
    {l : List Node} {st st' : MatState}
    (h : materializeList g asg l st = Except.ok st') {x : String} {S : List Nat}
    (hx : alookup x asg = some (Assignment.multi S))
    (hinv : ∀ j sd, st.dags.get? j = some sd → ∀ m ∈ sd.nodes,
      m.name = x → j ∈ S) :
    ∀ j sd, st'.dags.get? j = some sd → ∀ m ∈ sd.nodes, m.name = x → j ∈ S := by
  induction l generalizing st with
  | nil =>
    have h' : (Except.ok st : Except MatError MatState) = Except.ok st' := h
    injection h' with hh
    rw [← hh]
    exact hinv
  | cons n rest ih =>
    unfold materializeList at h
    split at h
    · cases h
    · rename_i st1 h1
      exact ih h (materializeNode_name_in h1 hx hinv)

theorem materializeAll_multi_included {g : Graph}
    {asg : List (String × Assignment)} {k : Nat} {st : MatState} {n : Node}
    (hn : n ∈ g.nodes) {S : List Nat}
    (hasg : alookup n.name asg = some (Assignment.multi S))
    (h : materializeAll g asg k = Except.ok st) :
    ∀ j ∈ S, ∀ sd, st.dags.get? j = some sd → n ∈ sd.nodes := by
  obtain ⟨l1, l2, he⟩ := List.append_of_mem hn
  rw [materializeAll, he, materializeList_append] at h
  intro j hj sd hsd
  cases hX : materializeList g asg l1
      { dags := List.replicate k emptySplitDag, missingVI := [] } with
  | error e =>
    rw [hX] at h
    cases h
  | ok st1 =>
    rw [hX] at h
    simp only [materializeList] at h
    cases hN : materializeNode g asg st1 n with
    | error e =>
      rw [hN] at h
      cases h
    | ok st2 =>
      rw [hN] at h
      unfold materializeNode at hN
      split at hN
      · rename_i heq
        rw [hasg] at heq
        cases heq
      · rename_i p heq
        rw [hasg] at heq
        cases heq
      · rename_i ps heq
        rw [hasg] at heq
        injection heq with hh
        injection hh with hh2
        split at hN
        · cases hN
        · rename_i dags2 hd
          cases hN
          obtain ⟨hlen, hbnd, hspec⟩ := addConstantCopies_spec hd
          have hjps : j ∈ ps := by
            rw [← hh2]
            exact hj
          have hjlt : j < st1.dags.length := hbnd j hjps
          rcases hspec j with ⟨h1, _⟩ | ⟨sdA, sdB, hA, hB, _, _, hin, _⟩
          · rw [List.get?_eq_none] at h1
            exact absurd h1 (Nat.not_le_of_lt hjlt)
          · have hnin : n ∈ sdB.nodes := hin hjps
            obtain ⟨sd', hsd', hle⟩ := (materializeList_le h).2.1 j sdB hB
            have hsde : sd' = sd := by
              rw [hsd'] at hsd
              injection hsd with hh3
            rw [← hsde]
            exact hle.1 hnin

/-- C4: for every Constant-kind node the final assignment is exactly the set
of distinct partitions of its assigned consumers (empty set: the node is
dropped with no error), and during materialization a full copy of the node is
placed in each sub-graph of that set and in no other sub-graph. -/
theorem c4_constant_resolution (g : Graph) (sa : List (String × Nat)) (b : Bool)
    (n : Node) (hnd : (g.nodes.map Node.name).Nodup) (hn : n ∈ g.nodes)
    (hc : n.opType = "Constant") :
    (alookup n.name (assignNodes g sa b) =
      (if ((nodeConsumers g n).filterMap
            (fun c => alookup c (mainAssignments g sa b))).dedup = []
       then none
       else some (Assignment.multi (((nodeConsumers g n).filterMap
            (fun c => alookup c (mainAssignments g sa b))).dedup)))) ∧
    (∀ p, p ∈ ((nodeConsumers g n).filterMap
          (fun c => alookup c (mainAssignments g sa b))).dedup ↔
        ∃ c ∈ nodeConsumers g n, alookup c (mainAssignments g sa b) = some p) ∧
    (∀ k st, materializeAll g (assignNodes g sa b) k = Except.ok st →
      ∀ j sd, st.dags.get? j = some sd →
        (n ∈ sd.nodes ↔ j ∈ ((nodeConsumers g n).filterMap
            (fun c => alookup c (mainAssignments g sa b))).dedup)) := by
  refine ⟨assignNodes_constant_lookup hnd hn hc, ?_, ?_⟩
  · intro p
    rw [List.mem_dedup, List.mem_filterMap]
  · intro k st hmat j sd hsd
    by_cases hs : ((nodeConsumers g n).filterMap
        (fun c => alookup c (mainAssignments g sa b))).dedup = []
    · rw [hs]
      have hnone : alookup n.name (assignNodes g sa b) = none := by
        rw [assignNodes_constant_lookup hnd hn hc, if_pos hs]
      constructor
      · intro hin
        exact absurd rfl
          (materializeAll_excludes_unassigned hmat hnone sd
            (List.get?_mem hsd) n hin)
      · intro hin
        cases hin
    · have hsome : alookup n.name (assignNodes g sa b) =
          some (Assignment.multi (((nodeConsumers g n).filterMap
            (fun c => alookup c (mainAssignments g sa b))).dedup)) := by
        rw [assignNodes_constant_lookup hnd hn hc, if_neg hs]
      constructor
      · intro hin
        have hstart : ∀ j2 sd2,
            (List.replicate k emptySplitDag).get? j2 = some sd2 →
            ∀ m ∈ sd2.nodes, m.name = n.name →
              j2 ∈ ((nodeConsumers g n).filterMap
                (fun c => alookup c (mainAssignments g sa b))).dedup := by
          intro j2 sd2 hsd2 m hm _
          have hse : sd2 = emptySplitDag :=
            List.eq_of_mem_replicate (List.get?_mem hsd2)
          rw [hse] at hm
          cases hm
        exact materializeList_name_in hmat hsome hstart j sd hsd n hin rfl
      · intro hin
        exact materializeAll_multi_included hn hsome hmat j hin sd hsd

/-- Witness for the C4 theorem at the three-split replication example: the
constant `K` has consumers in splits 0 and 2 and none in split 1. -/
theorem c4_constant_resolution_witness :
    ((repG.nodes.map Node.name).Nodup ∧ repK ∈ repG.nodes ∧
      repK.opType = "Constant") ∧
    alookup repK.name (assignNodes repG repSA true) =
      (if ((nodeConsumers repG repK).filterMap
            (fun c => alookup c (mainAssignments repG repSA true))).dedup = []
       then none
       else some (Assignment.multi (((nodeConsumers repG repK).filterMap
            (fun c => alookup c (mainAssignments repG repSA true))).dedup))) :=
  ⟨⟨by decide, by decide, by decide⟩,
    (c4_constant_resolution repG repSA true repK (by decide) (by decide)
      (by decide)).1⟩

theorem inputFold_outputs (g : Graph) (p : Nat) (ts : List String)
    (acc : SplitDag × List (String × Nat)) :
    ((ts.foldl (addNodeInput g p) acc).1).outputs = acc.1.outputs := by
  induction ts generalizing acc with
  | nil => rfl
  | cons t rest ih =>
    rw [List.foldl_cons, ih]
    simp only [addNodeInput]
    split_ifs <;> rfl

theorem markNodeOutput_outputs (g : Graph) (asg : List (String × Assignment))
    (p : Nat) (acc : SplitDag × List (String × Nat)) (t : String) :
    ∀ u ∈ (markNodeOutput g asg p acc t).1.outputs,
      u ∈ acc.1.outputs ∨ (u = t ∧ consumerOutsideB g asg p t = true) := by
  simp only [markNodeOutput]
  split_ifs <;> intro u hu <;>
    first
      | exact Or.inl hu
      | (rcases List.mem_append.mp hu with h2 | h2
         · exact Or.inl h2
         · exact Or.inr ⟨by simpa using h2, by assumption⟩)

theorem outputFold_outputs (g : Graph) (asg : List (String × Assignment))
    (p : Nat) (ts : List String) (acc : SplitDag × List (String × Nat)) :
    ∀ u ∈ ((ts.foldl (markNodeOutput g asg p) acc).1).outputs,
      u ∈ acc.1.outputs ∨
        ∃ t ∈ ts, u = t ∧ consumerOutsideB g asg p t = true := by
  induction ts generalizing acc with
  | nil => exact fun u hu => Or.inl hu
  | cons t rest ih =>
    rw [List.foldl_cons]
    intro u hu
    rcases ih (markNodeOutput g asg p acc t) u hu with h1 | ⟨t2, ht2, he⟩
    · rcases markNodeOutput_outputs g asg p acc t u h1 with h2 | h2
      · exact Or.inl h2
      · exact Or.inr ⟨t, List.mem_cons_self _ _, h2⟩
    · exact Or.inr ⟨t2, List.mem_cons_of_mem _ ht2, he⟩

theorem outputFold_marks {g : Graph} {asg : List (String × Assignment)}
    {p : Nat} (ts : List String) (acc : SplitDag × List (String × Nat))
    {t : String} (ht : t ∈ ts) (hne : t ≠ "")
    (hcond : consumerOutsideB g asg p t = true) :
    t ∈ ((ts.foldl (markNodeOutput g asg p) acc).1).outputs := by
  induction ts generalizing acc with
  | nil => cases ht
  | cons u rest ih =>
    rw [List.foldl_cons]
    by_cases hut : u = t
    · subst hut
      have hstep : u ∈ (markNodeOutput g asg p acc u).1.outputs := by
        simp only [markNodeOutput, hcond, if_neg hne]
        by_cases hmem2 : u ∈ acc.1.outputs
        · simp only [if_pos hmem2, if_true]
          exact hmem2
        · simp only [if_neg hmem2, if_true]
          exact List.mem_append.mpr (Or.inr (List.mem_cons_self _ _))
      exact (outputFold_le g asg p rest _).1.2.1 hstep
    · rcases List.mem_cons.mp ht with he | hmem
      · exact absurd he.symm hut
      · exact ih (markNodeOutput g asg p acc u) hmem

/-- The output-marking condition as the claim states it. -/
theorem consumerOutsideB_iff (g : Graph) (asg : List (String × Assignment))
    (p : Nat) (t : String) :
    consumerOutsideB g asg p t = true ↔
      ∃ c ∈ tensorConsumersSpecial g t,
        alookup c asg ≠ some (Assignment.single p) := by
  rw [consumerOutsideB, List.any_eq_true]
  constructor
  · intro ⟨c, hc, hd⟩
    exact ⟨c, hc, of_decide_eq_true hd⟩
  · intro ⟨c, hc, hd⟩
    exact ⟨c, hc, decide_eq_true hd⟩

theorem materializeNode_outputs_cond {g : Graph}
    {asg : List (String × Assignment)} {st : MatState} {n0 : Node}
    {st' : MatState} (h : materializeNode g asg st n0 = Except.ok st')
    (hinv : ∀ j sd, st.dags.get? j = some sd → ∀ t ∈ sd.outputs,
      ∃ c ∈ tensorConsumersSpecial g t,
        alookup c asg ≠ some (Assignment.single j)) :
    ∀ j sd, st'.dags.get? j = some sd → ∀ t ∈ sd.outputs,
      ∃ c ∈ tensorConsumersSpecial g t,
        alookup c asg ≠ some (Assignment.single j) := by
  unfold materializeNode at h
  split at h
  · cases h
    exact hinv
  · rename_i p hp
    split at h
    · cases h
    · rename_i sd hsd
      cases h
      intro j sd2 hsd2 t htt
      by_cases hj : j = p
      · rw [hj] at hsd2 ⊢
        rw [List.get?_set_eq_of_lt _ (get?_some_lt hsd)] at hsd2
        injection hsd2 with hh
        rw [← hh] at htt
        rcases outputFold_outputs g asg p n0.outputs _ t htt with h1 | ⟨t2, _, he, hcond⟩
        · have h1b : t ∈ sd.outputs := by
            have h1c : t ∈ (n0.inputs.foldl (addNodeInput g p)
                (sd, st.missingVI)).1.outputs := h1
            rwa [inputFold_outputs] at h1c
          exact hinv p sd hsd t h1b
        · rw [he]
          exact (consumerOutsideB_iff g asg p t2).mp hcond
      · rw [List.get?_set_ne _ _ (fun he => hj he.symm)] at hsd2
        exact hinv j sd2 hsd2 t htt
  · rename_i ps hp
    split at h
    · cases h
    · rename_i dags2 hd
      cases h
      intro j sd2 hsd2 t htt
      obtain ⟨_, _, hspec⟩ := addConstantCopies_spec hd
      rcases hspec j with ⟨_, h2⟩ | ⟨sdA, sdB, hA, hB, _, _, _, he1, _⟩
      · rw [h2] at hsd2
        cases hsd2
      · rw [hB] at hsd2
        injection hsd2 with hh
        rw [← hh, he1] at htt
        exact hinv j sdA hA t htt

theorem materializeList_outputs_cond {g : Graph}
    {asg : List (String × Assignment)} {l : List Node} {st st' : MatState}
    (h : materializeList g asg l st = Except.ok st')
    (hinv : ∀ j sd, st.dags.get? j = some sd → ∀ t ∈ sd.outputs,
      ∃ c ∈ tensorConsumersSpecial g t,
        alookup c asg ≠ some (Assignment.single j)) :
    ∀ j sd, st'.dags.get? j = some sd → ∀ t ∈ sd.outputs,
      ∃ c ∈ tensorConsumersSpecial g t,
        alookup c asg ≠ some (Assignment.single j) := by
  induction l generalizing st with
  | nil =>
    have h' : (Except.ok st : Except MatError MatState) = Except.ok st' := h
    injection h' with hh
    rw [← hh]
    exact hinv
  | cons n rest ih =>
    unfold materializeList at h
    split at h
    · cases h
    · rename_i st1 h1
      exact ih h (materializeNode_outputs_cond h1 hinv)

/-- C5: during materialization, a tensor name produced by a node resolved to
partition `p` is marked as an output of sub-graph `p` if and only if at least
one of its consumers (special graph-output consumers included) is assigned to
a partition other than `p` or has no resolved partition at all. -/
theorem c5_output_marking (g : Graph) (asg : List (String × Assignment))
    (k : Nat) (st : MatState) (n : Node) (p : Nat) (t : String)
    (hmat : materializeAll g asg k = Except.ok st) (hn : n ∈ g.nodes)
    (hasg : alookup n.name asg = some (Assignment.single p))
    (ht : t ∈ n.outputs) (hne : t ≠ "") :
    ∀ sd, st.dags.get? p = some sd →
      (t ∈ sd.outputs ↔
        ∃ c ∈ tensorConsumersSpecial g t,
          alookup c asg ≠ some (Assignment.single p)) := by
  intro sd hsd
  constructor
  · intro hin
    have hstart : ∀ j sd2,
        (List.replicate k emptySplitDag).get? j = some sd2 →
        ∀ u ∈ sd2.outputs, ∃ c ∈ tensorConsumersSpecial g u,
          alookup c asg ≠ some (Assignment.single j) := by
      intro j sd2 hsd2 u hu
      have hse : sd2 = emptySplitDag :=
        List.eq_of_mem_replicate (List.get?_mem hsd2)
      rw [hse] at hu
      cases hu
    exact materializeList_outputs_cond hmat hstart p sd hsd t hin
  · intro hex
    have hcond : consumerOutsideB g asg p t = true :=
      (consumerOutsideB_iff g asg p t).mpr hex
    obtain ⟨l1, l2, he⟩ := List.append_of_mem hn
    rw [materializeAll, he, materializeList_append] at hmat
    cases hX : materializeList g asg l1
        { dags := List.replicate k emptySplitDag, missingVI := [] } with
    | error e =>
      rw [hX] at hmat
      cases hmat
    | ok st1 =>
      rw [hX] at hmat
      simp only [materializeList] at hmat
      cases hN : materializeNode g asg st1 n with
      | error e =>
        rw [hN] at hmat
        cases hmat
      | ok st2 =>
        rw [hN] at hmat
        have hmarked : ∀ sd2, st2.dags.get? p = some sd2 → t ∈ sd2.outputs := by
          unfold materializeNode at hN
          split at hN
          · rename_i heq
            rw [hasg] at heq
            cases heq
          · rename_i p2 heq
            rw [hasg] at heq
            injection heq with hh
            injection hh with hh2
            rw [← hh2] at hN
            split at hN
            · cases hN
            · rename_i sd1 hsd1
              cases hN
              intro sd2 hsd2
              rw [List.get?_set_eq_of_lt _ (get?_some_lt hsd1)] at hsd2
              injection hsd2 with hh3
              rw [← hh3]
              exact outputFold_marks n.outputs _ ht hne hcond
          · rename_i ps heq
            rw [hasg] at heq
            cases heq
        obtain ⟨sd2, hsd2⟩ : ∃ sd2, st2.dags.get? p = some sd2 := by
          cases hg : st2.dags.get? p with
          | none =>
            rw [List.get?_eq_none] at hg
            have hlen := (materializeList_le hmat).1
            rw [List.get?_eq_none.mpr (hlen ▸ hg)] at hsd
            cases hsd
          | some sd2 => exact ⟨sd2, rfl⟩
        obtain ⟨sd3, hsd3, hle⟩ := (materializeList_le hmat).2.1 p sd2 hsd2
        have hsde : sd3 = sd := by
          rw [hsd3] at hsd
          injection hsd with hh
        rw [← hsde]
        exact hle.2.1 (hmarked sd2 hsd2)

/-- Witness for the C5 theorem on the chain graph: the tensor `b`, produced by
node `B` in split 0 and consumed by node `C` of split 1, is marked as an
output of sub-graph 0. -/
theorem c5_output_marking_witness :
    ∃ st, materializeAll chainG (assignNodes chainG chainSA true)
        (numSplits chainSA) = Except.ok st ∧
      ∀ sd, st.dags.get? 0 = some sd →
        ("b" ∈ sd.outputs ↔
          ∃ c ∈ tensorConsumersSpecial chainG "b",
            alookup c (assignNodes chainG chainSA true) ≠
              some (Assignment.single 0)) := by
  refine ⟨_, rfl, ?_⟩
  exact c5_output_marking chainG (assignNodes chainG chainSA true)
    (numSplits chainSA) _ chainB 0 "b" rfl (by decide) (by decide) (by decide)
    (by decide)

/-- Outcome of handling one input name during materialization into split `p`
(split.py lines 199-223): the graph-input and initializer facets are copied,
a cross-split name with known value-info becomes a typed input, and one
without becomes an untyped placeholder recorded in the deferred list. -/
def DoneInput (g : Graph) (p : Nat) (t : String) (sd : SplitDag)
    (mv : List (String × Nat)) : Prop :=
  (t ∈ g.graphInputs → t ∈ sd.typedInputs) ∧
  (t ∈ g.initializers → t ∈ sd.initFacets) ∧
  (t ∉ g.graphInputs → t ∉ g.initializers → t ∈ g.valueInfoNames →
    t ∈ sd.typedInputs) ∧
  (t ∉ g.graphInputs → t ∉ g.initializers → t ∉ g.valueInfoNames →
    t ∈ sd.untypedInputs ∧ (t, p) ∈ mv)

theorem isIo_false_iff {sd : SplitDag} {t : String} :
    sd.isIo t = false ↔
      t ∉ sd.typedInputs ∧ t ∉ sd.untypedInputs ∧ t ∉ sd.initFacets ∧
        ∀ m ∈ sd.nodes, t ∉ m.outputs := by
  simp [SplitDag.isIo, List.any_eq_false, and_assoc]

theorem addNodeInput_isIo_false (g : Graph) (p : Nat)
    (acc : SplitDag × List (String × Nat)) (u t : String) (hne : ¬u = t)
    (h : acc.1.isIo t = false) : (addNodeInput g p acc u).1.isIo t = false := by
  rw [isIo_false_iff] at h
  rw [isIo_false_iff]
  obtain ⟨h1, h2, h3, h4⟩ := h
  have hne' : t ≠ u := fun he => hne he.symm
  simp only [addNodeInput]
  split_ifs <;>
    exact ⟨by simp [List.mem_append, h1, hne'],
      by simp [List.mem_append, h2, hne'],
      by simp [List.mem_append, h3, hne'], h4⟩

theorem addNodeInput_processes (g : Graph) (p : Nat)
    (acc : SplitDag × List (String × Nat)) (t : String) (hne : t ≠ "")
    (hio : acc.1.isIo t = false) :
    DoneInput g p t (addNodeInput g p acc t).1 (addNodeInput g p acc t).2 := by
  have hio' : ¬(acc.1.isIo t = true) := by
    rw [hio]
    exact Bool.false_ne_true
  refine ⟨?_, ?_, ?_, ?_⟩
  · intro hgi
    simp only [addNodeInput, if_neg hne, if_neg hio']
    rw [if_pos (Or.inl hgi), if_pos hgi]
    by_cases hii : t ∈ g.initializers
    · rw [if_pos hii]
      exact List.mem_append.mpr (Or.inr (List.mem_cons_self _ _))
    · rw [if_neg hii]
      exact List.mem_append.mpr (Or.inr (List.mem_cons_self _ _))
  · intro hii
    simp only [addNodeInput, if_neg hne, if_neg hio']
    rw [if_pos (Or.inr hii), if_pos hii]
    exact List.mem_append.mpr (Or.inr (List.mem_cons_self _ _))
  · intro hgi hii hvi
    have hor : ¬(t ∈ g.graphInputs ∨ t ∈ g.initializers) := by
      intro hc
      rcases hc with hh | hh
      exacts [hgi hh, hii hh]
    simp only [addNodeInput, if_neg hne, if_neg hio']
    rw [if_neg hor, if_pos hvi]
    exact List.mem_append.mpr (Or.inr (List.mem_cons_self _ _))
  · intro hgi hii hvi
    have hor : ¬(t ∈ g.graphInputs ∨ t ∈ g.initializers) := by
      intro hc
      rcases hc with hh | hh
      exacts [hgi hh, hii hh]
    simp only [addNodeInput, if_neg hne, if_neg hio']
    rw [if_neg hor, if_neg hvi]
    exact ⟨List.mem_append.mpr (Or.inr (List.mem_cons_self _ _)),
      List.mem_append.mpr (Or.inr (List.mem_cons_self _ _))⟩

theorem doneInput_mono {g : Graph} {p : Nat} {t : String} {sd sd' : SplitDag}
    {mv mv' : List (String × Nat)} (h : DoneInput g p t sd mv)
    (hle : SdLe sd sd') (hmv : mv ⊆ mv') : DoneInput g p t sd' mv' :=
  ⟨fun h1 => hle.2.2.1 (h.1 h1), fun h1 => hle.2.2.2.2.1 (h.2.1 h1),
    fun h1 h2 h3 => hle.2.2.1 (h.2.2.1 h1 h2 h3),
    fun h1 h2 h3 => ⟨hle.2.2.2.1 (h.2.2.2 h1 h2 h3).1,
      hmv (h.2.2.2 h1 h2 h3).2⟩⟩

theorem inputFold_handles {g : Graph} {p : Nat} {t : String} (ts : List String)
    (acc : SplitDag × List (String × Nat)) (ht : t ∈ ts) (hne : t ≠ "")
    (hio : acc.1.isIo t = false) :
    DoneInput g p t ((ts.foldl (addNodeInput g p) acc).1)
      ((ts.foldl (addNodeInput g p) acc).2) := by
  induction ts generalizing acc with
  | nil => cases ht
  | cons u rest ih =>
    rw [List.foldl_cons]
    by_cases hut : u = t
    · subst hut
      exact doneInput_mono (addNodeInput_processes g p acc u hne hio)
        (inputFold_le g p rest _).1 (inputFold_le g p rest _).2
    · rcases List.mem_cons.mp ht with he | hmem
      · exact absurd he.symm hut
      · exact ih _ hmem (addNodeInput_isIo_false g p acc u t hut hio)

theorem markNodeOutput_typed (g : Graph) (asg : List (String × Assignment))
    (p : Nat) (acc : SplitDag × List (String × Nat)) (t : String) :
    (markNodeOutput g asg p acc t).1.typedInputs = acc.1.typedInputs := by
  simp only [markNodeOutput]
  split_ifs <;> rfl

theorem markNodeOutput_untyped (g : Graph) (asg : List (String × Assignment))
    (p : Nat) (acc : SplitDag × List (String × Nat)) (t : String) :
    (markNodeOutput g asg p acc t).1.untypedInputs = acc.1.untypedInputs := by
  simp only [markNodeOutput]
  split_ifs <;> rfl

theorem markNodeOutput_init (g : Graph) (asg : List (String × Assignment))
    (p : Nat) (acc : SplitDag × List (String × Nat)) (t : String) :
    (markNodeOutput g asg p acc t).1.initFacets = acc.1.initFacets := by
  simp only [markNodeOutput]
  split_ifs <;> rfl

theorem outputFold_typed (g : Graph) (asg : List (String × Assignment))
    (p : Nat) (ts : List String) (acc : SplitDag × List (String × Nat)) :
    ((ts.foldl (markNodeOutput g asg p) acc).1).typedInputs =
      acc.1.typedInputs := by
  induction ts generalizing acc with
  | nil => rfl
  | cons t rest ih => rw [List.foldl_cons, ih, markNodeOutput_typed]

theorem outputFold_untyped (g : Graph) (asg : List (String × Assignment))
    (p : Nat) (ts : List String) (acc : SplitDag × List (String × Nat)) :
    ((ts.foldl (markNodeOutput g asg p) acc).1).untypedInputs =
      acc.1.untypedInputs := by
  induction ts generalizing acc with
  | nil => rfl
  | cons t rest ih => rw [List.foldl_cons, ih, markNodeOutput_untyped]

theorem outputFold_init (g : Graph) (asg : List (String × Assignment))
    (p : Nat) (ts : List String) (acc : SplitDag × List (String × Nat)) :
    ((ts.foldl (markNodeOutput g asg p) acc).1).initFacets =
      acc.1.initFacets := by
  induction ts generalizing acc with
  | nil => rfl
  | cons t rest ih => rw [List.foldl_cons, ih, markNodeOutput_init]

theorem addNodeInput_missing (g : Graph) (p : Nat)
    (acc : SplitDag × List (String × Nat)) (u : String) :
    (addNodeInput g p acc u).2 = acc.2 ∨
      ((addNodeInput g p acc u).2 = acc.2 ++ [(u, p)] ∧
        u ∉ g.valueInfoNames) := by
  simp only [addNodeInput]
  split_ifs <;> first | exact Or.inl rfl | exact Or.inr ⟨rfl, by assumption⟩

theorem inputFold_missing (g : Graph) (p : Nat) (ts : List String)
    (acc : SplitDag × List (String × Nat)) :
    ∀ e ∈ (ts.foldl (addNodeInput g p) acc).2,
      e ∈ acc.2 ∨ ∃ u ∈ ts, e = (u, p) ∧ u ∉ g.valueInfoNames := by
  induction ts generalizing acc with
  | nil => exact fun e he => Or.inl he
  | cons u rest ih =>
    rw [List.foldl_cons]
    intro e he
    rcases ih (addNodeInput g p acc u) e he with h1 | ⟨u2, hu2, he2⟩
    · rcases addNodeInput_missing g p acc u with h2 | ⟨h2, hvi⟩
      · rw [h2] at h1
        exact Or.inl h1
      · rw [h2] at h1
        rcases List.mem_append.mp h1 with h3 | h3
        · exact Or.inl h3
        · exact Or.inr ⟨u, List.mem_cons_self _ _, by simpa using h3, hvi⟩
    · exact Or.inr ⟨u2, List.mem_cons_of_mem _ hu2, he2⟩

theorem markNodeOutput_missing (g : Graph) (asg : List (String × Assignment))
    (p : Nat) (acc : SplitDag × List (String × Nat)) (u : String) :
    (markNodeOutput g asg p acc u).2 = acc.2 ∨
      (markNodeOutput g asg p acc u).2 = acc.2 ++ [(u, p)] := by
  simp only [markNodeOutput]
  split_ifs <;> first | exact Or.inl rfl | exact Or.inr rfl

theorem outputFold_missing (g : Graph) (asg : List (String × Assignment))
    (p : Nat) (ts : List String) (acc : SplitDag × List (String × Nat)) :
    ∀ e ∈ (ts.foldl (markNodeOutput g asg p) acc).2,
      e ∈ acc.2 ∨ ∃ u ∈ ts, e = (u, p) := by
  induction ts generalizing acc with
  | nil => exact fun e he => Or.inl he
  | cons u rest ih =>
    rw [List.foldl_cons]
    intro e he
    rcases ih (markNodeOutput g asg p acc u) e he with h1 | ⟨u2, hu2, he2⟩
    · rcases markNodeOutput_missing g asg p acc u with h2 | h2
      · rw [h2] at h1
        exact Or.inl h1
      · rw [h2] at h1
        rcases List.mem_append.mp h1 with h3 | h3
        · exact Or.inl h3
        · exact Or.inr ⟨u, List.mem_cons_self _ _, by simpa using h3⟩
    · exact Or.inr ⟨u2, List.mem_cons_of_mem _ hu2, he2⟩

/-- C6: when materializing a node resolved to a single partition `p`, every
non-empty input name not already present in sub-graph `p` is handled as
follows: a main-graph-input facet is copied as a (typed) input, an
initializer facet is copied as an initializer (both when the name is both);
otherwise the name becomes an input of sub-graph `p` — typed when value-info
is known (and then no deferred record is created for it), untyped with
`(name, p)` recorded in the deferred missing-metadata list when unknown. -/
theorem c6_cross_split_inputs (g : Graph) (asg : List (String × Assignment))
    (st st' : MatState) (n : Node) (p : Nat) (sd0 : SplitDag) (t : String)
    (hstep : materializeNode g asg st n = Except.ok st')
    (hasg : alookup n.name asg = some (Assignment.single p))
    (hsd0 : st.dags.get? p = some sd0)
    (ht : t ∈ n.inputs) (hne : t ≠ "") (hio : sd0.isIo t = false)
    (htout : t ∉ n.outputs) :
    ∀ sd', st'.dags.get? p = some sd' →
      ((t ∈ g.graphInputs → t ∈ sd'.typedInputs) ∧
       (t ∈ g.initializers → t ∈ sd'.initFacets) ∧
       (t ∉ g.graphInputs → t ∉ g.initializers → t ∈ g.valueInfoNames →
         t ∈ sd'.typedInputs ∧
           ((t, p) ∉ st.missingVI → (t, p) ∉ st'.missingVI)) ∧
       (t ∉ g.graphInputs → t ∉ g.initializers → t ∉ g.valueInfoNames →
         t ∈ sd'.untypedInputs ∧ (t, p) ∈ st'.missingVI)) := by
  unfold materializeNode at hstep
  split at hstep
  · rename_i heq
    rw [hasg] at heq
    cases heq
  · rename_i p2 heq
    rw [hasg] at heq
    injection heq with hh
    injection hh with hh2
    rw [← hh2] at hstep
    split at hstep
    · cases hstep
    · rename_i sd1 hsd1
      cases hstep
      have hsde : sd1 = sd0 := by
        rw [hsd1] at hsd0
        injection hsd0
      intro sd' hsd'
      rw [List.get?_set_eq_of_lt _ (get?_some_lt hsd1)] at hsd'
      injection hsd' with hh5
      have hio1 : sd1.isIo t = false := by
        rw [hsde]
        exact hio
      have hdone : DoneInput g p t
          ((n.inputs.foldl (addNodeInput g p) (sd1, st.missingVI)).1)
          ((n.inputs.foldl (addNodeInput g p) (sd1, st.missingVI)).2) :=
        inputFold_handles n.inputs (sd1, st.missingVI) ht hne hio1
      have htyped : sd'.typedInputs =
          (n.inputs.foldl (addNodeInput g p) (sd1, st.missingVI)).1.typedInputs := by
        rw [← hh5, outputFold_typed]
      have huntyped : sd'.untypedInputs =
          (n.inputs.foldl (addNodeInput g p) (sd1, st.missingVI)).1.untypedInputs := by
        rw [← hh5, outputFold_untyped]
      have hinit : sd'.initFacets =
          (n.inputs.foldl (addNodeInput g p) (sd1, st.missingVI)).1.initFacets := by
        rw [← hh5, outputFold_init]
      refine ⟨?_, ?_, ?_, ?_⟩
      · intro hgi
        rw [htyped]
        exact hdone.1 hgi
      · intro hii
        rw [hinit]
        exact hdone.2.1 hii
      · intro hgi hii hvi
        refine ⟨by rw [htyped]; exact hdone.2.2.1 hgi hii hvi, ?_⟩
        intro hnot hmem
        rcases outputFold_missing g asg p n.outputs _ _ hmem with h1 | ⟨u, hu, he⟩
        · rcases inputFold_missing g p n.inputs (sd1, st.missingVI) _ h1
            with h2 | ⟨u, hu, he, hvi2⟩
          · exact hnot h2
          · injection he with he1 _
            rw [← he1] at hvi2
            exact hvi2 hvi
        · injection he with he1 _
          rw [he1] at htout
          exact htout hu
      · intro hgi hii hvi
        refine ⟨by rw [huntyped]; exact (hdone.2.2.2 hgi hii hvi).1, ?_⟩
        exact (outputFold_le g asg p n.outputs _).2 (hdone.2.2.2 hgi hii hvi).2
  · rename_i ps heq
    rw [hasg] at heq
    cases heq

/-- Initial two-split materialization state used by the C6 witness. -/
def c6St0 : MatState :=
  { dags := [emptySplitDag, emptySplitDag], missingVI := [] }

/-- Witness for the C6 theorem: on the chain graph under the inclusive
policy, node `C` of split 1 consumes the cross-split tensor `b` whose
value-info is known, so `b` becomes a typed input of sub-graph 1. -/
theorem c6_cross_split_inputs_witness :
    ∃ st', materializeNode chainG (assignNodes chainG chainSA true) c6St0
        chainC = Except.ok st' ∧
      ∀ sd', st'.dags.get? 1 = some sd' → "b" ∈ sd'.typedInputs := by
  refine ⟨_, rfl, ?_⟩
  intro sd' hsd'
  exact ((c6_cross_split_inputs chainG (assignNodes chainG chainSA true) c6St0
    _ chainC 1 emptySplitDag "b" rfl (by decide) (by decide) (by decide)
    (by decide) (by decide) (by decide)) sd' hsd').2.2.1 (by decide)
    (by decide) (by decide) |>.1

/-- State of the exclusive-policy assignment after the main unassigned-node
pass and before the Cast reconciliation pass (split.py lines 130-154). -/
def exclusiveResult (g : Graph) (sa : List (String × Nat)) :
    List (String × Nat) :=
  exclusivePass g
    (computeNextSplit g (directAssignments g sa (namespaceDepth sa)))
    (directAssignments g sa (namespaceDepth sa))

theorem mainAssignments_false_cast (g : Graph) (sa : List (String × Nat)) :
    mainAssignments g sa false = castPass g (exclusiveResult g sa) := rfl

theorem materializeAll_single_included {g : Graph}
    {asg : List (String × Assignment)} {k : Nat} {st : MatState} {n : Node}
    (hn : n ∈ g.nodes) {q : Nat}
    (hasg : alookup n.name asg = some (Assignment.single q))
    (h : materializeAll g asg k = Except.ok st) :
    ∀ sd, st.dags.get? q = some sd → n ∈ sd.nodes := by
  obtain ⟨l1, l2, he⟩ := List.append_of_mem hn
  rw [materializeAll, he, materializeList_append] at h
  intro sd hsd
  cases hX : materializeList g asg l1
      { dags := List.replicate k emptySplitDag, missingVI := [] } with
  | error e =>
    rw [hX] at h
    cases h
  | ok st1 =>
    rw [hX] at h
    simp only [materializeList] at h
    cases hN : materializeNode g asg st1 n with
    | error e =>
      rw [hN] at h
      cases h
    | ok st2 =>
      rw [hN] at h
      have hmem2 : ∀ sd2, st2.dags.get? q = some sd2 → n ∈ sd2.nodes := by
        unfold materializeNode at hN
        split at hN
        · rename_i heq
          rw [hasg] at heq
          cases heq
        · rename_i q2 heq
          rw [hasg] at heq
          injection heq with hh
          injection hh with hh2
          rw [← hh2] at hN
          split at hN
          · cases hN
          · rename_i sd1 hsd1
            cases hN
            intro sd2 hsd2
            rw [List.get?_set_eq_of_lt _ (get?_some_lt hsd1)] at hsd2
            injection hsd2 with hh3
            rw [← hh3, outputFold_nodes]
            have hmm : n ∈ (n.inputs.foldl (addNodeInput g q)
                (sd1, st1.missingVI)).1.nodes ++ [n] :=
              List.mem_append.mpr (Or.inr (List.mem_cons_self _ _))
            exact hmm
        · rename_i ps heq
          rw [hasg] at heq
          cases heq
      obtain ⟨sd2, hsd2⟩ : ∃ sd2, st2.dags.get? q = some sd2 := by
        cases hg : st2.dags.get? q with
        | none =>
          rw [List.get?_eq_none] at hg
          have hlen := (materializeList_le h).1
          rw [List.get?_eq_none.mpr (hlen ▸ hg)] at hsd
          cases hsd
        | some sd2 => exact ⟨sd2, rfl⟩
      obtain ⟨sd3, hsd3, hle⟩ := (materializeList_le h).2.1 q sd2 hsd2
      have hsde : sd3 = sd := by
        rw [hsd3] at hsd
        injection hsd
      rw [← hsde]
      exact hle.1 (hmem2 sd2 hsd2)

theorem castPass_through {g : Graph} {asg0 : List (String × Nat)} {n : Node}
    (hnd : (g.nodes.map Node.name).Nodup) (hn : n ∈ g.nodes)
    (hun : alookup n.name asg0 = none) :
    ∃ a1, alookup n.name a1 = none ∧
      (∀ x v, alookup x asg0 = some v → alookup x a1 = some v) ∧
      ∀ x v, alookup x (castStep g a1 n) = some v →
        alookup x (castPass g asg0) = some v := by
  obtain ⟨l1, l2, he⟩ := List.append_of_mem hn
  have hnotin : n.name ∉ l1.map Node.name := by
    rw [he, List.map_append, List.map_cons] at hnd
    intro hx
    exact (List.nodup_append.mp hnd).2.2 hx (List.mem_cons_self _ _)
  refine ⟨l1.foldl (castStep g) asg0, ?_, ?_, ?_⟩
  · apply foldl_alookup_none (castStep_append g) _ _ _ hun
    intro a m hm hname _
    exact absurd (hname ▸ List.mem_map.mpr ⟨m, hm, rfl⟩) hnotin
  · intro x v hv
    exact foldl_alookup_mono (castStep_append g) l1 asg0 hv
  · intro x v hv
    rw [castPass, he, List.foldl_append, List.foldl_cons]
    exact foldl_alookup_mono (castStep_append g) l2 _ hv

/-- C7: under the exclusive policy, after the main unassigned-node pass, a
still-unassigned Cast node with exactly one consumer (special consumers
included) inherits a partition in exactly these two cases: if it consumes a
graph input and its sole consumer is assigned, it inherits the consumer's
partition; otherwise (it does not consume a graph input), if its sole parent
is assigned and it produces a graph output, it inherits the parent's
partition — and the node is then materialized inside that partition.  The
last conjunct states, at the level of one reconciliation step, that these
are the only assigning cases. -/
theorem c7_cast_inheritance (g : Graph) (sa : List (String × Nat)) (n : Node)
    (hnd : (g.nodes.map Node.name).Nodup) (hn : n ∈ g.nodes)
    (hcast : n.opType = "Cast")
    (hone : (nodeConsumersSpecial g n).length = 1)
    (hun : alookup n.name (exclusiveResult g sa) = none) :
    (∀ q, is_input_consumer g n = true →
      alookup ((nodeConsumersSpecial g n).headD "") (exclusiveResult g sa) =
        some q →
      alookup n.name (assignNodes g sa false) = some (Assignment.single q) ∧
      ∀ k st, materializeAll g (assignNodes g sa false) k = Except.ok st →
        ∀ sd, st.dags.get? q = some sd → n ∈ sd.nodes) ∧
    (∀ q, is_input_consumer g n = false →
      alookup ((getParentsSpecial g n).headD "") (exclusiveResult g sa) =
        some q →
      is_output_producer g n = true →
      alookup n.name (assignNodes g sa false) = some (Assignment.single q) ∧
      ∀ k st, materializeAll g (assignNodes g sa false) k = Except.ok st →
        ∀ sd, st.dags.get? q = some sd → n ∈ sd.nodes) ∧
    (∀ a, alookup n.name a = none →
      ((alookup n.name (castStep g a n)).isSome = true ↔
        ((is_input_consumer g n = true ∧
            (alookup ((nodeConsumersSpecial g n).headD "") a).isSome = true) ∨
          ((alookup ((getParentsSpecial g n).headD "") a).isSome = true ∧
            is_output_producer g n = true)))) := by
  have hguard : ∀ a : List (String × Nat), alookup n.name a = none →
      ¬((alookup n.name a).isSome = true ∨ ¬n.opType = "Cast" ∨
        ¬(nodeConsumersSpecial g n).length = 1) := by
    intro a ha hc
    rcases hc with hc | hc | hc
    · rw [ha] at hc
      exact Bool.false_ne_true hc
    · exact hc hcast
    · exact hc hone
  have hstepA : ∀ a (q : Nat), alookup n.name a = none →
      is_input_consumer g n = true →
      alookup ((nodeConsumersSpecial g n).headD "") a = some q →
      alookup n.name (castStep g a n) = some q := by
    intro a q ha hic hc
    unfold castStep
    rw [if_neg (hguard a ha), if_pos ⟨hic, by rw [hc]; rfl⟩, hc]
    show alookup n.name (a ++ [(n.name, q)]) = some q
    rw [alookup_single_append _ _ ha, if_pos rfl]
  have hstepB : ∀ a (q : Nat), alookup n.name a = none →
      is_input_consumer g n = false →
      alookup ((getParentsSpecial g n).headD "") a = some q →
      is_output_producer g n = true →
      alookup n.name (castStep g a n) = some q := by
    intro a q ha hic hp hop
    unfold castStep
    rw [if_neg (hguard a ha),
      if_neg (fun hc => by rw [hic] at hc; exact Bool.false_ne_true hc.1), hp]
    show alookup n.name
      (if is_output_producer g n = true then a ++ [(n.name, q)] else a) = some q
    rw [if_pos hop]
    rw [alookup_single_append _ _ ha, if_pos rfl]
  obtain ⟨a1, ha1none, ha1mono, ha1final⟩ :=
    castPass_through hnd hn hun
  refine ⟨?_, ?_, ?_⟩
  · intro q hic hcons
    have hm : alookup n.name (mainAssignments g sa false) = some q := by
      rw [mainAssignments_false_cast]
      exact ha1final _ _ (hstepA a1 q ha1none hic (ha1mono _ _ hcons))
    have hv : alookup n.name (assignNodes g sa false) =
        some (Assignment.single q) := by
      rw [assignNodes_eq]
      apply alookup_append_some
      rw [alookup_map_value, hm]
      rfl
    exact ⟨hv, fun k st hmat => materializeAll_single_included hn hv hmat⟩
  · intro q hic hp hop
    have hm : alookup n.name (mainAssignments g sa false) = some q := by
      rw [mainAssignments_false_cast]
      exact ha1final _ _ (hstepB a1 q ha1none hic (ha1mono _ _ hp) hop)
    have hv : alookup n.name (assignNodes g sa false) =
        some (Assignment.single q) := by
      rw [assignNodes_eq]
      apply alookup_append_some
      rw [alookup_map_value, hm]
      rfl
    exact ⟨hv, fun k st hmat => materializeAll_single_included hn hv hmat⟩
  · intro a ha
    constructor
    · intro hsome
      by_cases hic : is_input_consumer g n = true
      · cases hcl : alookup ((nodeConsumersSpecial g n).headD "") a with
        | some q => exact Or.inl ⟨hic, rfl⟩
        | none =>
          cases hpl : alookup ((getParentsSpecial g n).headD "") a with
          | some q =>
            by_cases hop : is_output_producer g n = true
            · exact Or.inr ⟨rfl, hop⟩
            · exfalso
              have heq : castStep g a n = a := by
                unfold castStep
                rw [if_neg (hguard a ha),
                  if_neg (fun hc => by rw [hcl] at hc; exact Bool.false_ne_true hc.2), hpl]
                show (if is_output_producer g n = true
                  then a ++ [(n.name, q)] else a) = a
                rw [if_neg hop]
              rw [heq, ha] at hsome
              exact Bool.false_ne_true hsome
          | none =>
            exfalso
            have heq : castStep g a n = a := by
              unfold castStep
              rw [if_neg (hguard a ha),
                if_neg (fun hc => by rw [hcl] at hc; exact Bool.false_ne_true hc.2), hpl]
            rw [heq, ha] at hsome
            exact Bool.false_ne_true hsome
      · cases hpl : alookup ((getParentsSpecial g n).headD "") a with
        | some q =>
          by_cases hop : is_output_producer g n = true
          · exact Or.inr ⟨rfl, hop⟩
          · exfalso
            have heq : castStep g a n = a := by
              unfold castStep
              rw [if_neg (hguard a ha), if_neg (fun hc => hic hc.1), hpl]
              show (if is_output_producer g n = true
                then a ++ [(n.name, q)] else a) = a
              rw [if_neg hop]
            rw [heq, ha] at hsome
            exact Bool.false_ne_true hsome
        | none =>
          exfalso
          have heq : castStep g a n = a := by
            unfold castStep
            rw [if_neg (hguard a ha), if_neg (fun hc => hic hc.1), hpl]
          rw [heq, ha] at hsome
          exact Bool.false_ne_true hsome
    · intro hcase
      rcases hcase with ⟨hic, hsome⟩ | ⟨hsome, hop⟩
      · obtain ⟨q, hq⟩ := Option.isSome_iff_exists.mp hsome
        rw [hstepA a q ha hic hq]
        rfl
      · by_cases hic : is_input_consumer g n = true
        · cases hcl : alookup ((nodeConsumersSpecial g n).headD "") a with
          | some q =>
            rw [hstepA a q ha hic hcl]
            rfl
          | none =>
            obtain ⟨q, hq⟩ := Option.isSome_iff_exists.mp hsome
            have heq : alookup n.name (castStep g a n) = some q := by
              unfold castStep
              rw [if_neg (hguard a ha),
                if_neg (fun hc => by rw [hcl] at hc; exact Bool.false_ne_true hc.2), hq]
              show alookup n.name
                (if is_output_producer g n = true
                  then a ++ [(n.name, q)] else a) = some q
              rw [if_pos hop]
              rw [alookup_single_append _ _ ha, if_pos rfl]
            rw [heq]
            rfl
        · have hicf : is_input_consumer g n = false := by
            cases hb : is_input_consumer g n
            · rfl
            · exact absurd hb hic
          obtain ⟨q, hq⟩ := Option.isSome_iff_exists.mp hsome
          rw [hstepB a q ha hicf hq hop]
          rfl

/-- Witness for the C7 theorem: on the Input-Cast-Split graph, the Cast node
`X1` consumes the graph input, its sole consumer `B` is assigned to split 0
under the exclusive policy, and `X1` inherits split 0. -/
theorem c7_cast_inheritance_witness :
    ((inCastG.nodes.map Node.name).Nodup ∧ inCastX ∈ inCastG.nodes ∧
      inCastX.opType = "Cast" ∧
      (nodeConsumersSpecial inCastG inCastX).length = 1 ∧
      alookup inCastX.name (exclusiveResult inCastG inCastSA) = none ∧
      is_input_consumer inCastG inCastX = true ∧
      alookup ((nodeConsumersSpecial inCastG inCastX).headD "")
        (exclusiveResult inCastG inCastSA) = some 0) ∧
    alookup inCastX.name (assignNodes inCastG inCastSA false) =
      some (Assignment.single 0) :=
  ⟨⟨by decide, by decide, by decide, by decide, by decide, by decide,
    by decide⟩,
    ((c7_cast_inheritance inCastG inCastSA inCastX (by decide) (by decide)
      (by decide) (by decide) (by decide)).1 0 (by decide) (by decide)).1⟩

theorem applyInferredVI_mono {inferredVI : String → Bool}
    {l : List (String × Nat)} {dags dags' : List SplitDag}
    (h : applyInferredVI inferredVI l dags = .ok dags') :
    dags'.length = dags.length ∧
      ∀ j sd, dags.get? j = some sd →
        ∃ sd', dags'.get? j = some sd' ∧ sd.valueInfos ⊆ sd'.valueInfos := by
  induction l generalizing dags with
  | nil =>
    have h' : (Except.ok dags : Except MatError (List SplitDag)) = Except.ok dags' := h
    injection h' with hh
    rw [← hh]
    exact ⟨rfl, fun j sd hj => ⟨sd, hj, List.Subset.refl _⟩⟩
  | cons e rest ih =>
    unfold applyInferredVI at h
    split at h
    · cases hg : dags.get? e.2 with
      | none =>
        rw [hg] at h
        exact ih h
      | some sd0 =>
        rw [hg] at h
        obtain ⟨hlen, hmono⟩ := ih h
        refine ⟨by rw [hlen, List.length_set], ?_⟩
        intro j sd hj
        by_cases hje : j = e.2
        · rw [hje] at hj ⊢
          have hsde : sd = sd0 := by
            rw [hg] at hj
            injection hj with hh
            exact hh.symm
          obtain ⟨sd', hsd', hsub⟩ := hmono e.2 _
            (List.get?_set_eq_of_lt _ (get?_some_lt hg))
          refine ⟨sd', hsd', ?_⟩
          rw [hsde]
          exact (List.subset_append_left _ _).trans hsub
        · obtain ⟨sd', hsd', hsub⟩ := hmono j sd
            (by rw [List.get?_set_ne _ _ (fun he => hje he.symm)]; exact hj)
          exact ⟨sd', hsd', hsub⟩
    · cases h

theorem applyInferredVI_spec {inferredVI : String → Bool}
    (l : List (String × Nat)) (dags : List SplitDag)
    (hall : ∀ e ∈ l, inferredVI e.1 = true) :
    ∃ dags', applyInferredVI inferredVI l dags = .ok dags' ∧
      ∀ e ∈ l, ∀ sd, dags'.get? e.2 = some sd → e.1 ∈ sd.valueInfos := by
  induction l generalizing dags with
  | nil => exact ⟨dags, rfl, fun e he => absurd he (List.not_mem_nil e)⟩
  | cons e rest ih =>
    obtain ⟨dags', hd', hprop⟩ :=
      ih (match dags.get? e.2 with
          | none => dags
          | some sd => dags.set e.2
              { sd with valueInfos := sd.valueInfos ++ [e.1] })
        (fun e2 he2 => hall e2 (List.mem_cons_of_mem _ he2))
    refine ⟨dags', ?_, ?_⟩
    · unfold applyInferredVI
      rw [hall e (List.mem_cons_self _ _), if_pos rfl]
      exact hd'
    · intro e2 he2 sd hsd
      rcases List.mem_cons.mp he2 with he | hm
      · rw [he]
        cases hg : dags.get? e.2 with
        | none =>
          obtain ⟨hlen, _⟩ := applyInferredVI_mono hd'
          rw [hg] at hlen
          rw [hg] at hd'
          rw [List.get?_eq_none] at hg
          rw [he] at hsd
          rw [List.get?_eq_none.mpr (hlen ▸ hg)] at hsd
          cases hsd
        | some sd0 =>
          rw [hg] at hd'
          obtain ⟨hlen, hmono⟩ := applyInferredVI_mono hd'
          obtain ⟨sd', hsd', hsub⟩ := hmono e.2 _
            (List.get?_set_eq_of_lt _ (get?_some_lt hg))
          rw [he] at hsd
          have hsde : sd' = sd := by
            rw [hsd'] at hsd
            injection hsd
          rw [← hsde]
          exact hsub (List.mem_append.mpr (Or.inr (List.mem_cons_self _ _)))
      · exact hprop e2 hm sd hsd

theorem applyInferredVI_error {inferredVI : String → Bool}
    (l : List (String × Nat)) (dags : List SplitDag)
    (hsome : ∃ e ∈ l, inferredVI e.1 = false) :
    ∃ nm, applyInferredVI inferredVI l dags =
        .error (.unresolvedValueInfo nm) ∧ inferredVI nm = false := by
  induction l generalizing dags with
  | nil =>
    obtain ⟨e, he, _⟩ := hsome
    cases he
  | cons e rest ih =>
    cases hb : inferredVI e.1 with
    | false =>
      refine ⟨e.1, ?_, hb⟩
      unfold applyInferredVI
      rw [hb, if_neg Bool.false_ne_true]
    | true =>
      have hrest : ∃ e2 ∈ rest, inferredVI e2.1 = false := by
        obtain ⟨e2, he2, hf⟩ := hsome
        rcases List.mem_cons.mp he2 with he | hm
        · rw [he, hb] at hf
          cases hf
        · exact ⟨e2, hm, hf⟩
      obtain ⟨nm, hnm, hf⟩ := ih _ hrest
      refine ⟨nm, ?_, hf⟩
      unfold applyInferredVI
      rw [hb, if_pos rfl]
      exact hnm

/-- C9: the external shape-inference collaborator is invoked exactly once,
against the original unsplit graph with dynamic-dimension auto-merging
enabled, if and only if the deferred missing-metadata list is non-empty; when
every deferred name is inferable, each deferred `(name, p)` entry receives
value-info in sub-graph `p`; when some deferred name remains without
value-info, the run fails fatally with an unresolved-value-info error and no
sub-graphs are returned. -/
theorem c9_shape_inference (g : Graph) (inferredVI : String → Bool)
    (st : MatState) :
    ((resolveMissingVI g inferredVI st).2 =
      if st.missingVI = [] then [] else [⟨g, true⟩]) ∧
    ((∀ e ∈ st.missingVI, inferredVI e.1 = true) →
      ∃ dags', (resolveMissingVI g inferredVI st).1 = Except.ok dags' ∧
        ∀ e ∈ st.missingVI, ∀ sd, dags'.get? e.2 = some sd →
          e.1 ∈ sd.valueInfos) ∧
    ((∃ e ∈ st.missingVI, inferredVI e.1 = false) →
      ∃ nm, (resolveMissingVI g inferredVI st).1 =
        Except.error (MatError.unresolvedValueInfo nm) ∧
        inferredVI nm = false) := by
  by_cases hemp : st.missingVI = []
  · rw [resolveMissingVI, if_pos hemp, if_pos hemp]
    refine ⟨rfl, ?_, ?_⟩
    · intro _
      refine ⟨st.dags, rfl, ?_⟩
      intro e he
      rw [hemp] at he
      cases he
    · intro ⟨e, he, _⟩
      rw [hemp] at he
      cases he
  · rw [resolveMissingVI, if_neg hemp, if_neg hemp]
    refine ⟨rfl, ?_, ?_⟩
    · intro hall
      exact applyInferredVI_spec st.missingVI st.dags hall
    · intro hsome
      exact applyInferredVI_error st.missingVI st.dags hsome

/-- Oracle of the C9 witness: shape inference can type exactly the name
`t`. -/
def c9Inferred : String → Bool := fun nm => decide (nm = "t")

/-- Materialization state of the C9 witness: one sub-graph and one deferred
record. -/
def c9St : MatState :=
  { dags := [emptySplitDag], missingVI := [("t", 0)] }

/-- Witness for the C9 theorem: with one deferred record the collaborator is
invoked exactly once on the original graph with auto-merge, and the record is
overwritten in its sub-graph. -/
theorem c9_shape_inference_witness :
    ((∀ e ∈ c9St.missingVI, c9Inferred e.1 = true) ∧
      (resolveMissingVI chainG c9Inferred c9St).2 = [⟨chainG, true⟩]) ∧
    ∃ dags', (resolveMissingVI chainG c9Inferred c9St).1 = Except.ok dags' ∧
      ∀ e ∈ c9St.missingVI, ∀ sd, dags'.get? e.2 = some sd →
        e.1 ∈ sd.valueInfos := by
  refine ⟨⟨by decide, ?_⟩,
    (c9_shape_inference chainG c9Inferred c9St).2.1 (by decide)⟩
  rw [(c9_shape_inference chainG c9Inferred c9St).1,
    if_neg (by decide : ¬c9St.missingVI = [])]

/-- C2: on the chain graph `A -> B -> C -> D` with namespace depth 1,
assignment map `B` to 0 and `C` to 1, and the inclusive policy, the assignment
phase yields exactly: A to partition 0, B to 0, C to 1 and D to 1. -/
theorem c2_chain_inclusive_assignment :
    assignNodes chainG chainSA true =
      [("B", Assignment.single 0), ("C", Assignment.single 1),
       ("A", Assignment.single 0), ("D", Assignment.single 1)] := by
  decide

/-- C1, counterexample: under the inclusive policy the assignment phase does
not give every node exactly one partition.  In the graph `constG` the
Constant node `K`, consumed by nodes of splits 0 and 1, is assigned the
two-element set of partitions, and the consumer-less Constant node `K2` is
left with no assignment at all. -/
theorem c1_counterexample :
    constK ∈ constG.nodes ∧ constK2 ∈ constG.nodes ∧
    alookup "K" (assignNodes constG constSA true) =
      some (Assignment.multi [0, 1]) ∧
    alookup "K2" (assignNodes constG constSA true) = none := by
  decide

/-- C3, counterexample: under the exclusive policy a node whose `next_split`
value is none is not always dropped.  In `castExG` the Cast node `X` lies
strictly after the last split (`next_split` records none for it), yet the Cast
reconciliation pass assigns it its parent's partition 0 and it is materialized
inside sub-graph 0. -/
theorem c3_counterexample :
    alookup "X"
        (computeNextSplit castExG
          (directAssignments castExG castExSA (namespaceDepth castExSA))) =
      some none ∧
    alookup "X" (assignNodes castExG castExSA false) =
      some (Assignment.single 0) ∧
    includedIn
        (materializeAll castExG (assignNodes castExG castExSA false)
          (numSplits castExSA)) "X" 0 = true := by
  decide

/-- C8, counterexample: a split-assignment map whose keys have different
namespace depths (here `x.y` of depth 2 and `z` of depth 1) does not make the
run fail: the full pass runs to completion and returns sub-graphs. -/
theorem c8_counterexample :
    (splitOnDot "x.y".data).length ≠ (splitOnDot "z".data).length ∧
    (∃ dags, runSplit depthG depthSA true (fun _ => false) =
      (Except.ok dags, [])) := by
  exact ⟨by decide, ⟨_, rfl⟩⟩

/-- C8, amended: non-uniform namespace depth is not detected; the run proceeds
and the depth it uses is the depth of the map's first key.  With first key
`x.y` the depth is 2, so `x.y.w` matches directly and `z.a` does not (it is
pulled to split 0 by propagation); with the keys swapped the depth is 1, `z.a`
matches key `z` directly and `x.y.w` is propagated to split 1. -/
theorem c8_amended_first_key_depth :
    namespaceDepth depthSA = 2 ∧ namespaceDepth depthSA' = 1 ∧
    alookup "x.y.w" (assignNodes depthG depthSA true) =
      some (Assignment.single 0) ∧
    alookup "z.a" (assignNodes depthG depthSA true) =
      some (Assignment.single 0) ∧
    alookup "z.a" (assignNodes depthG depthSA' true) =
      some (Assignment.single 1) ∧
    alookup "x.y.w" (assignNodes depthG depthSA' true) =
      some (Assignment.single 1) := by
  decide

/-- C10: the partition indices of the split-assignment map are not validated
to form a contiguous range: with indices `(0, 2)` the split count is the
number of distinct values, 2, node `C` keeps the raw index 2, and
materialization fails by indexing past the end of the two-element split list
instead of reporting a configuration error. -/
theorem c10_non_contiguous_indices_oob :
    numSplits gapSA = 2 ∧
    alookup "C" (assignNodes gapG gapSA true) = some (Assignment.single 2) ∧
    runSplit gapG gapSA true (fun _ => false) =
      (Except.error (MatError.indexOutOfBounds 2), []) := by
  exact ⟨by decide, by decide, rfl⟩

end OliveSplit
